import Mathlib

/-!
Verification development for the charm-generation pipeline worker.

The TypeScript sources are shallowly embedded: outbound HTTP calls, the R2
bucket binding and `crypto.randomUUID()` are modelled as explicit environment
values describing the outcome of each collaborator interaction; machine bytes
are `Nat`s; JavaScript numbers used by the local image pipeline are modelled
as `ℚ` with explicit `Math.round`/`Math.floor` counterparts; fallible code
returns `Option`/`Except`.  Each embedded definition cites the source file it
translates.
-/

set_option maxRecDepth 4096

/-! ## Model of src/utils/retry.ts: retryWithBackoff

The operation thunk may behave differently on each call; we index the modelled
outcome by the attempt number.  `retryAux op baseDelay attempt fuel` models the
loop body at `attempt` where `fuel = maxRetries - attempt`; on the last allowed
attempt (`fuel = 0`, i.e. `attempt === maxRetries`) the last error is rethrown.
The trace records the result, the number of invocations of the operation and
the list of computed backoff delays (`baseDelay * 2 ^ attempt`). -/

structure RetryTrace (ε α : Type) where
  result : Except ε α
  attemptsMade : Nat
  delays : List Nat

def retryAux (op : Nat → Except ε α) (baseDelay : Nat) (attempt : Nat) :
    Nat → RetryTrace ε α
  | 0 =>
    match op attempt with
    | .ok v => ⟨.ok v, 1, []⟩
    | .error e => ⟨.error e, 1, []⟩
  | Nat.succ fuel =>
    match op attempt with
    | .ok v => ⟨.ok v, 1, []⟩
    | .error _ =>
      let delay := baseDelay * 2 ^ attempt
      let rest := retryAux op baseDelay (attempt + 1) fuel
      ⟨rest.result, rest.attemptsMade + 1, delay :: rest.delays⟩

def retryWithBackoff (op : Nat → Except ε α) (maxRetries : Nat)
    (baseDelay : Nat) : RetryTrace ε α :=
  retryAux op baseDelay 0 maxRetries

/-- src/services/ai/fal.ts line 61: `generateGoldImage` passes `1` as
`maxRetries` ("Only 1 retry to avoid excessive delays"). -/
def goldImageMaxRetries : Nat := 1

/-! ## Model of src/services/storage/r2.ts: uploadImageToR2

`env.USER_UPLOADS_BUCKET` is modelled as `Option PutBehavior`: `none` is an
absent binding, `some .throws` a binding whose `put` rejects, `some .ok` a
successful put.  The whole body is wrapped in try/catch whose catch arm
returns the placeholder URL; an absent bucket returns the placeholder without
throwing.  `imageBuffer`, `productId` and the metadata options only affect the
stored object metadata, never the returned URL, so they are carried but
unused. -/

inductive PutBehavior where
  | ok
  | throws
deriving DecidableEq

structure R2Env where
  bucket : Option PutBehavior
deriving DecidableEq

def r2PlaceholderBase : String := "https://storage.example.com/uploads/"

def r2DevBase : String := "https://pub-a60a2e7f4821493380ef9f646ab6b33c.r2.dev/"

def uploadImageToR2 (imageBuffer : List Nat) (filename : String)
    (productId : String) (env : R2Env) : String :=
  let tryBody : Except Unit String :=
    match env.bucket with
    | none => .ok (r2PlaceholderBase ++ filename)
    | some .throws => .error ()
    | some .ok => .ok (r2DevBase ++ filename)
  match tryBody with
  | .ok url => url
  | .error _ => r2PlaceholderBase ++ filename

/-- The URL path component after the last `/` of the string. -/
def lastPathSegment (s : String) : String :=
  String.mk ((s.toList.reverse.takeWhile (fun c => c ≠ '/')).reverse)

/-! ## Model of src/services/ai/fal.ts: convertToGreyscale

The three byte-acquisition attempts (Cloudflare URL transformation, the
Workers `cf.image` fetch option, the raw fetch of the gold URL) are modelled
by three `FetchOutcome`s in the environment.  A non-2xx response makes the
code throw, which the enclosing catch turns into the next fallback, so both
`err` and `notOk` fall through.  If all three fail, the outer catch returns
the gold URL unchanged.  Otherwise the bytes are uploaded through
`uploadImageToR2` with filename `<randomUUID>-silver.jpg`, and whatever URL
that returns (it never throws) is the result. -/

inductive FetchOutcome where
  | err
  | notOk (status : Nat)
  | ok (bytes : List Nat)
deriving DecidableEq

structure GreyscaleEnv where
  transformationFetch : FetchOutcome
  workersApiFetch : FetchOutcome
  directFetch : FetchOutcome
  r2 : R2Env
  randomUUID : String
  productId : String
deriving DecidableEq

def fetchBytes : FetchOutcome → Except Unit (List Nat)
  | .ok bytes => .ok bytes
  | .err => .error ()
  | .notOk _ => .error ()

def greyscaleBytes (env : GreyscaleEnv) : Except Unit (List Nat) :=
  match fetchBytes env.transformationFetch with
  | .ok b => .ok b
  | .error _ =>
    match fetchBytes env.workersApiFetch with
    | .ok b => .ok b
    | .error _ => fetchBytes env.directFetch

def convertToGreyscale (goldCharmImageUrl : String) (env : GreyscaleEnv) :
    String :=
  match greyscaleBytes env with
  | .ok bytes =>
    uploadImageToR2 bytes (env.randomUUID ++ "-silver.jpg") env.productId env.r2
  | .error _ => goldCharmImageUrl

/-! ## Model of src/services/ai/fal.ts: generateGoldImage request body

Only the request-body construction is modelled (lines 9-10 and 26-37); the
constant `loras` entry and the transport wrapper are orthogonal to claim C3.
JavaScript `prompt && prompt.trim().length > 0` is truthiness on the string
(empty string falsy) followed by the trimmed-length test. -/

def defaultPrompt : String :=
  "Convert the input image into a 3D figurine gold charm. Image style- product photography. product centered on a white background. keep a small loop at the top. output should look like a finished jewelry charm, therefore ensure it is a one piece casting, don\x27t keep sharp edges as well. there should be no color used apart from gold."

/-- The whitespace accepted between JSON tokens by `JSON.parse`. -/
def isJsonWs (c : Char) : Bool :=
  c = ' ' || c = '\t' || c = '\n' || c = '\r'

/-- The full ECMAScript WhiteSpace/LineTerminator set, used by
`String.prototype.trim` and by `\s` in the fence-stripping regexes. -/
def isTrimWs (c : Char) : Bool :=
  isJsonWs c || c = '\x0b' || c = '\x0c' || c = Char.ofNat 0xa0 ||
  c = Char.ofNat 0x1680 || (0x2000 ≤ c.toNat && c.toNat ≤ 0x200a) ||
  c = Char.ofNat 0x2028 || c = Char.ofNat 0x2029 || c = Char.ofNat 0x202f ||
  c = Char.ofNat 0x205f || c = Char.ofNat 0x3000 || c = Char.ofNat 0xfeff

/-- JavaScript `String.prototype.trim`, modelled over the character list with
the full ECMAScript whitespace set. -/
def strTrim (s : String) : String :=
  String.mk
    (((s.toList.dropWhile isTrimWs).reverse.dropWhile isTrimWs).reverse)

def finalPrompt (prompt : Option String) : String :=
  match prompt with
  | none => defaultPrompt
  | some p => if p ≠ "" ∧ 0 < (strTrim p).length then p else defaultPrompt

structure FalImageEditRequest where
  image_url : String
  prompt : String
  num_inference_steps : Nat
  guidance_scale : Nat
  num_images : Nat
  output_format : String
deriving DecidableEq

def generateGoldImageRequest (imageBase64 : String) (prompt : Option String) :
    FalImageEditRequest :=
  { image_url := "data:image/jpeg;base64," ++ imageBase64
  , prompt := finalPrompt prompt
  , num_inference_steps := 50
  , guidance_scale := 4
  , num_images := 1
  , output_format := "jpeg" }

/-! ## Model of the handleCreateCharm override logic

`handleCreateCharm` (the charm route handler) reads `story` from the form with
`|| ''`, so a missing override is the empty string, and the conditional
`story ? {...} : {...}` tests string truthiness.  When an override is present
the handler keeps it and sets productName to the literal `'Custom Charm'`; the
synthesis prompt passed to `generateGoldImage` is `visionResult.prompt` in
both cases. -/

structure VisionPromptResult where
  productName : String
  story : String
  prompt : String
deriving DecidableEq

def nameAndStory (story : String) (visionResult : VisionPromptResult) :
    String × String :=
  if story ≠ "" then ("Custom Charm", story)
  else (visionResult.productName, visionResult.story)

def charmGenerationInputs (storyOverride : String)
    (visionResult : VisionPromptResult) : VisionPromptResult :=
  { productName := (nameAndStory storyOverride visionResult).1
  , story := (nameAndStory storyOverride visionResult).2
  , prompt := visionResult.prompt }

/-! ## Model of the local image fallback (resizeAndGrayscaleTo1024)

The pixel pipeline of the local fallback is embedded; the JPEG/PNG codecs and
the base64 re-encoding wrap it and are outside the pixel model (decoding
yields a width, a height and an RGBA byte array, modelled by `RgbaImage`).
JavaScript numbers are modelled as `ℚ`; `Math.round x` is `⌊x + 1/2⌋`
(exact for the nonnegative values arising here), and a store into a
`Uint8ClampedArray` clamps to `[0, 255]`, rounding halves to even.  Byte
arrays are total functions `Nat → Nat` (a fresh `Uint8ClampedArray` is
zero-initialised, hence the `else 0` defaults), and each loop of the source
is a `List.foldl` over the iteration range performing explicit pointwise
updates. -/

def jsRound (q : ℚ) : ℤ := Int.floor (q + 1 / 2)

def jsRoundNat (q : ℚ) : Nat := (jsRound q).toNat

/-- ToUint8Clamp for a fractional value: clamp to `[0, 255]`, round halves to
even. -/
def clampStore (q : ℚ) : Nat :=
  if q ≤ 0 then 0
  else if 255 ≤ q then 255
  else
    (if q - Int.floor q < 1 / 2 then Int.floor q
     else if 1 / 2 < q - Int.floor q then Int.floor q + 1
     else if Int.floor q % 2 = 0 then Int.floor q else Int.floor q + 1).toNat

/-- ToUint8Clamp for a value already integral (as `Math.round` results are):
only the clamping remains. -/
def clampStoreInt (n : ℤ) : Nat :=
  if n ≤ 0 then 0 else if 255 ≤ n then 255 else n.toNat

/-- Pointwise array update. -/
def updN (a : Nat → Nat) (i v : Nat) : Nat → Nat :=
  fun j => if j = i then v else a j

/-- The four consecutive byte writes performed by one loop iteration that
copies an RGBA pixel. -/
def write4 (a : Nat → Nat) (base : Nat) (vals : Nat → Nat) : Nat → Nat :=
  updN (updN (updN (updN a base (vals 0)) (base + 1) (vals 1)) (base + 2)
    (vals 2)) (base + 3) (vals 3)

/-- `bilinearResize` (services/images/localFallback.ts).  The source loop
writes each destination byte index `(dstY * dstWidth + dstX) * 4 + c` exactly
once with a value depending only on that index, so the loop is embedded as the
function it computes; the arithmetic mirrors the source line by line. -/
def bilinearResize (srcData : Nat → Nat) (srcWidth srcHeight dstWidth dstHeight : Nat) :
    Nat → Nat := fun idx =>
  if idx < dstWidth * dstHeight * 4 then
    let c := idx % 4
    let pix := idx / 4
    let dstX := pix % dstWidth
    let dstY := pix / dstWidth
    let xRatio : ℚ := (srcWidth : ℚ) / (dstWidth : ℚ)
    let yRatio : ℚ := (srcHeight : ℚ) / (dstHeight : ℚ)
    let srcX : ℚ := (dstX : ℚ) * xRatio
    let srcY : ℚ := (dstY : ℚ) * yRatio
    let srcX0 : Nat := (Int.floor srcX).toNat
    let srcY0 : Nat := (Int.floor srcY).toNat
    let srcX1 : Nat := min (srcX0 + 1) (srcWidth - 1)
    let srcY1 : Nat := min (srcY0 + 1) (srcHeight - 1)
    let xWeight : ℚ := srcX - (srcX0 : ℚ)
    let yWeight : ℚ := srcY - (srcY0 : ℚ)
    let tl : ℚ := (srcData ((srcY0 * srcWidth + srcX0) * 4 + c) : ℚ)
    let tr : ℚ := (srcData ((srcY0 * srcWidth + srcX1) * 4 + c) : ℚ)
    let bl : ℚ := (srcData ((srcY1 * srcWidth + srcX0) * 4 + c) : ℚ)
    let br : ℚ := (srcData ((srcY1 * srcWidth + srcX1) * 4 + c) : ℚ)
    let top := tl + (tr - tl) * xWeight
    let bottom := bl + (br - bl) * xWeight
    clampStore (top + (bottom - top) * yWeight)
  else 0

/-- Target square dimension of the local fallback. -/
def targetSize : Nat := 1024

/-- The white-canvas fill loop (`for i in steps of 4: 255,255,255,255`),
iterating once per pixel over the zero-initialised destination array. -/
def whiteFill (numPixels : Nat) : Nat → Nat :=
  (List.range numPixels).foldl
    (fun acc k => write4 acc (4 * k) (fun _ => 255)) (fun _ => 0)

/-- One iteration of the compositing loop: copy the four bytes of scaled
pixel `(y, x)` (pair order `(y, x)`) to its centred destination. -/
def pasteStep (resized : Nat → Nat) (scaledW offsetX offsetY : Nat)
    (acc : Nat → Nat) (yx : Nat × Nat) : Nat → Nat :=
  write4 acc (((yx.1 + offsetY) * targetSize + (yx.2 + offsetX)) * 4)
    (fun c => resized ((yx.1 * scaledW + yx.2) * 4 + c))

/-- The nested compositing loops (`for y ... for x ...`). -/
def pasteLoop (resized : Nat → Nat) (scaledW scaledH offsetX offsetY : Nat)
    (a : Nat → Nat) : Nat → Nat :=
  (List.range scaledH).foldl
    (fun accY y =>
      (List.range scaledW).foldl
        (fun acc x => pasteStep resized scaledW offsetX offsetY acc (y, x)) accY) a

/-- The flattened iteration domain of the nested compositing loops. -/
def pastePairs (scaledW scaledH : Nat) : List (Nat × Nat) :=
  (List.range scaledH).flatMap
    (fun y => (List.range scaledW).map (fun x => (y, x)))

/-- ITU-R BT.601 luma approximation used by the grayscale loop. -/
def luma (r g b : ℚ) : ℚ := 299 / 1000 * r + 587 / 1000 * g + 114 / 1000 * b

/-- The value written by one grayscale iteration for pixel `k`, computed from
the pre-iteration array. -/
def grayValue (a : Nat → Nat) (k : Nat) : Nat :=
  clampStoreInt (jsRound (luma (a (4 * k)) (a (4 * k + 1)) (a (4 * k + 2))))

/-- One iteration of the in-place grayscale loop: read r, g, b of pixel `k`,
write the rounded luma to the three colour channels, leave alpha alone. -/
def grayWrite (acc : Nat → Nat) (k : Nat) : Nat → Nat :=
  updN (updN (updN acc (4 * k) (grayValue acc k)) (4 * k + 1) (grayValue acc k))
    (4 * k + 2) (grayValue acc k)

/-- The grayscale loop (`for i in steps of 4` over the whole canvas). -/
def grayLoop (a : Nat → Nat) (numPixels : Nat) : Nat → Nat :=
  (List.range numPixels).foldl grayWrite a

/-- Scaled width: source branches on `width > height`; the longer side becomes
`targetSize`, the other is `Math.round` of the aspect-preserving value. -/
def scaledWidth (w h : Nat) : Nat :=
  if h < w then targetSize
  else jsRoundNat ((targetSize : ℚ) * ((w : ℚ) / (h : ℚ)))

def scaledHeight (w h : Nat) : Nat :=
  if h < w then jsRoundNat ((targetSize : ℚ) / ((w : ℚ) / (h : ℚ)))
  else targetSize

/-- A decoded RGBA image: dimensions plus the byte array. -/
structure RgbaImage where
  width : Nat
  height : Nat
  data : Nat → Nat

/-- The composited (pre-grayscale) canvas: scaled image pasted onto the white
canvas at the floor-divided centring offsets.  JS `Math.floor((1024 - s) / 2)`
agrees with the `Nat` division here because the scaled dimensions never
exceed `targetSize`. -/
def paddedStage (img : RgbaImage) : Nat → Nat :=
  pasteLoop
    (bilinearResize img.data img.width img.height
      (scaledWidth img.width img.height) (scaledHeight img.width img.height))
    (scaledWidth img.width img.height) (scaledHeight img.width img.height)
    ((targetSize - scaledWidth img.width img.height) / 2)
    ((targetSize - scaledHeight img.width img.height) / 2)
    (whiteFill (targetSize * targetSize))

/-- The pixel pipeline of `resizeAndGrayscaleTo1024`: scale to fit, paste
centred on the opaque white square canvas, then grayscale in place.  The
`targetSize`-by-`targetSize` dimensions are the ones handed to the JPEG
encoder. -/
def resizeAndGrayscaleTo1024Core (img : RgbaImage) : RgbaImage :=
  ⟨targetSize, targetSize, grayLoop (paddedStage img) (targetSize * targetSize)⟩

/-! ## Model of src/utils/json.ts: parseJsonFromContent

Strings are embedded as `List Char`.  `JSON.parse` is modelled by a
recursive-descent parser over the JSON fragment produced by the vision
service: `null`, booleans, integer numbers, strings with the single-character
escapes, arrays and objects (`\uXXXX` escapes and fractional/exponent number
forms are outside the model).  A successful parse of a prefix returns the
value and the unconsumed remainder; `parseJson` additionally requires the
remainder to be whitespace, as `JSON.parse` does.  The parser recursion is
bounded by explicit fuel; `2 * length + 2` dominates the recursion depth of
every input the theorems evaluate (the roundtrip lemmas prove the bound
sufficient for every rendered value). -/

def quoteCh : Char := Char.ofNat 34

def backslashCh : Char := Char.ofNat 92

def backtickCh : Char := Char.ofNat 96

def braceOpenCh : Char := Char.ofNat 123

def braceCloseCh : Char := Char.ofNat 125

def bracketOpenCh : Char := Char.ofNat 91

def bracketCloseCh : Char := Char.ofNat 93

/-- The language-tag character class `[a-zA-Z0-9_-]` of the leading-fence
regex. -/
def isTagChar (c : Char) : Bool := c.isAlphanum || c = '_' || c = '-'

inductive Json where
  | null
  | bool (b : Bool)
  | num (n : Int)
  | str (s : List Char)
  | arr (elems : List Json)
  | obj (members : List (List Char × Json))

def escChar (c : Char) : Option Char :=
  if c = quoteCh then some quoteCh
  else if c = backslashCh then some backslashCh
  else if c = '/' then some '/'
  else if c = 'n' then some '\n'
  else if c = 't' then some '\t'
  else if c = 'r' then some '\r'
  else if c = 'b' then some (Char.ofNat 8)
  else if c = 'f' then some (Char.ofNat 12)
  else none

/-- String-literal body parser; the opening quote is already consumed.  Raw
control characters are rejected as `JSON.parse` rejects them. -/
def parseStringBody : List Char → Option (List Char × List Char)
  | [] => none
  | c :: rest =>
    if c = quoteCh then some ([], rest)
    else if c = backslashCh then
      match rest with
      | [] => none
      | e :: rest2 =>
        match escChar e, parseStringBody rest2 with
        | some d, some (s, r) => some (d :: s, r)
        | _, _ => none
    else if c.toNat < 32 then none
    else
      match parseStringBody rest with
      | some (s, r) => some (c :: s, r)
      | none => none

def digitsToNat (ds : List Char) : Nat :=
  ds.foldl (fun a c => 10 * a + (c.toNat - 48)) 0

def parseNumber (cs : List Char) : Option (Json × List Char) :=
  match cs with
  | '-' :: rest =>
    if (rest.takeWhile Char.isDigit).isEmpty then none
    else some (Json.num (-(digitsToNat (rest.takeWhile Char.isDigit) : Int)),
      rest.drop (rest.takeWhile Char.isDigit).length)
  | _ =>
    if (cs.takeWhile Char.isDigit).isEmpty then none
    else some (Json.num (digitsToNat (cs.takeWhile Char.isDigit)),
      cs.drop (cs.takeWhile Char.isDigit).length)

mutual

def parseValue : Nat → List Char → Option (Json × List Char)
  | 0, _ => none
  | Nat.succ fuel, cs =>
    match cs.dropWhile isJsonWs with
    | [] => none
    | c :: rest =>
      if c = braceOpenCh then parseObject fuel rest
      else if c = bracketOpenCh then parseArray fuel rest
      else if c = quoteCh then
        match parseStringBody rest with
        | some (s, r) => some (Json.str s, r)
        | none => none
      else if c = 'n' then
        if rest.take 3 = ['u', 'l', 'l'] then some (Json.null, rest.drop 3)
        else none
      else if c = 't' then
        if rest.take 3 = ['r', 'u', 'e'] then some (Json.bool true, rest.drop 3)
        else none
      else if c = 'f' then
        if rest.take 4 = ['a', 'l', 's', 'e'] then
          some (Json.bool false, rest.drop 4)
        else none
      else if c = '-' || c.isDigit then parseNumber (c :: rest)
      else none

def parseObject : Nat → List Char → Option (Json × List Char)
  | 0, _ => none
  | Nat.succ fuel, cs =>
    match cs.dropWhile isJsonWs with
    | [] => none
    | c :: rest =>
      if c = braceCloseCh then some (Json.obj [], rest)
      else
        match parseMembersLoop fuel (c :: rest) with
        | some (ms, r) => some (Json.obj ms, r)
        | none => none

def parseArray : Nat → List Char → Option (Json × List Char)
  | 0, _ => none
  | Nat.succ fuel, cs =>
    match cs.dropWhile isJsonWs with
    | [] => none
    | c :: rest =>
      if c = bracketCloseCh then some (Json.arr [], rest)
      else
        match parseElementsLoop fuel (c :: rest) with
        | some (xs, r) => some (Json.arr xs, r)
        | none => none

def parseMembersLoop :
    Nat → List Char → Option (List (List Char × Json) × List Char)
  | 0, _ => none
  | Nat.succ fuel, cs =>
    match cs.dropWhile isJsonWs with
    | [] => none
    | c :: rest =>
      if c = quoteCh then
        match parseStringBody rest with
        | none => none
        | some (k, r1) =>
          match r1.dropWhile isJsonWs with
          | [] => none
          | c2 :: r2 =>
            if c2 = ':' then
              match parseValue fuel r2 with
              | none => none
              | some (v, r3) =>
                match r3.dropWhile isJsonWs with
                | [] => none
                | c3 :: r4 =>
                  if c3 = ',' then
                    match parseMembersLoop fuel r4 with
                    | none => none
                    | some (ms, r5) => some ((k, v) :: ms, r5)
                  else if c3 = braceCloseCh then some ([(k, v)], r4)
                  else none
            else none
      else none

def parseElementsLoop : Nat → List Char → Option (List Json × List Char)
  | 0, _ => none
  | Nat.succ fuel, cs =>
    match parseValue fuel cs with
    | none => none
    | some (v, r1) =>
      match r1.dropWhile isJsonWs with
      | [] => none
      | c2 :: r2 =>
        if c2 = ',' then
          match parseElementsLoop fuel r2 with
          | none => none
          | some (xs, r3) => some (v :: xs, r3)
        else if c2 = bracketCloseCh then some ([v], r2)
        else none

end

/-- `JSON.parse`: parse one value and require only whitespace after it. -/
def parseJson (cs : List Char) : Option Json :=
  match parseValue (2 * cs.length + 2) cs with
  | some (v, rest) =>
    if (rest.dropWhile isJsonWs).isEmpty then some v else none
  | none => none

/-- `content.trim()` over the character list. -/
def jsTrimList (cs : List Char) : List Char :=
  ((cs.dropWhile isTrimWs).reverse.dropWhile isTrimWs).reverse

/-- `raw.replace(/^BTBTBT[a-zA-Z0-9_-]*\s*%/i, fromStrEmpty)` where BT is a
backtick: a no-op unless the string starts with three backticks, otherwise it
removes them together with the greedy tag and whitespace runs. -/
def stripLeadingFence (cs : List Char) : List Char :=
  if cs.take 3 = [backtickCh, backtickCh, backtickCh] then
    ((cs.drop 3).dropWhile isTagChar).dropWhile isTrimWs
  else cs

/-- The `\s*BTBTBT\s*$` replace (BT a backtick): removes a trailing
whitespace-run/fence/whitespace-run suffix when present, otherwise a no-op. -/
def stripTrailingFence (cs : List Char) : List Char :=
  if (cs.reverse.dropWhile isTrimWs).take 3 =
      [backtickCh, backtickCh, backtickCh] then
    (((cs.reverse.dropWhile isTrimWs).drop 3).dropWhile isTrimWs).reverse
  else cs

/-- `indexOf` for a character, as an `Option` instead of `-1`. -/
def charIndex (c : Char) : List Char → Option Nat
  | [] => none
  | d :: t => if d = c then some 0 else (charIndex c t).map (· + 1)

/-- `lastIndexOf` for a character. -/
def lastCharIndex (c : Char) (cs : List Char) : Option Nat :=
  (charIndex c cs.reverse).map (fun i => cs.length - 1 - i)

/-- `raw.slice(start, end + 1)` guarded by
`start !== -1 && end !== -1 && end > start`. -/
def extractBetween (cs : List Char) (o p : Char) : Option (List Char) :=
  match charIndex o cs, lastCharIndex p cs with
  | some i, some j => if i < j then some ((cs.take (j + 1)).drop i) else none
  | _, _ => none

/-- Stage 4 of the cascade: array-substring extraction. -/
def parseArrayStage (raw : List Char) : Option Json :=
  match extractBetween raw bracketOpenCh bracketCloseCh with
  | some sub => parseJson sub
  | none => none

/-- The four-stage cascade of `parseJsonFromContent`; `none` models the final
`throw`. -/
def parseJsonFromContent (content : List Char) : Option Json :=
  match parseJson (jsTrimList content) with
  | some v => some v
  | none =>
    match parseJson (jsTrimList
        (stripTrailingFence (stripLeadingFence (jsTrimList content)))) with
    | some v => some v
    | none =>
      match extractBetween (jsTrimList content) braceOpenCh braceCloseCh with
      | some sub =>
        match parseJson sub with
        | some v => some v
        | none => parseArrayStage (jsTrimList content)
      | none => parseArrayStage (jsTrimList content)

/-! Canonical serialisation of the modelled JSON fragment, used to quantify
over JSON values in claim C5 (`JSON.stringify`-style compact output). -/

def natDigits (n : Nat) : List Char :=
  if n = 0 then ['0'] else (Nat.digits 10 n).reverse.map Nat.digitChar

def renderInt (n : Int) : List Char :=
  if n < 0 then '-' :: natDigits n.natAbs else natDigits n.toNat

mutual

def renderV : Json → List Char
  | .null => 'n' :: ['u', 'l', 'l']
  | .bool true => 't' :: ['r', 'u', 'e']
  | .bool false => 'f' :: ['a', 'l', 's', 'e']
  | .num n => renderInt n
  | .str s => quoteCh :: (s ++ [quoteCh])
  | .arr xs => bracketOpenCh :: (renderL xs ++ [bracketCloseCh])
  | .obj ms => braceOpenCh :: (renderM ms ++ [braceCloseCh])

def renderL : List Json → List Char
  | [] => []
  | [x] => renderV x
  | x :: y :: xs => renderV x ++ ',' :: renderL (y :: xs)

def renderM : List (List Char × Json) → List Char
  | [] => []
  | [(k, v)] => quoteCh :: (k ++ quoteCh :: ':' :: renderV v)
  | (k, v) :: m :: ms =>
    (quoteCh :: (k ++ quoteCh :: ':' :: renderV v)) ++ ',' :: renderM (m :: ms)

end

/-! Fuel-requirement measures for the parsers. -/

mutual

def sizeV : Json → Nat
  | .null => 1
  | .bool _ => 1
  | .num _ => 1
  | .str _ => 1
  | .arr xs => 2 + sizeL xs
  | .obj ms => 2 + sizeM ms

def sizeL : List Json → Nat
  | [] => 0
  | x :: xs => 1 + sizeV x + sizeL xs

def sizeM : List (List Char × Json) → Nat
  | [] => 0
  | (_, v) :: ms => 1 + sizeV v + sizeM ms

end

/-- Characters that need no escaping inside a JSON string literal. -/
def plainChar (c : Char) : Bool :=
  32 ≤ c.toNat && c ≠ quoteCh && c ≠ backslashCh

mutual

def plainV : Json → Bool
  | .null => true
  | .bool _ => true
  | .num _ => true
  | .str s => s.all plainChar
  | .arr xs => plainL xs
  | .obj ms => plainM ms

def plainL : List Json → Bool
  | [] => true
  | x :: xs => plainV x && plainL xs

def plainM : List (List Char × Json) → Bool
  | [] => true
  | (k, v) :: ms => k.all plainChar && plainV v && plainM ms

end

/-- Characters of surrounding natural-language prose in claim C5: ASCII
letters, spaces and basic punctuation — no JSON structure characters, no
digits, no backticks. -/
def proseChar (c : Char) : Bool :=
  (65 ≤ c.toNat && c.toNat ≤ 90) || (97 ≤ c.toNat && c.toNat ≤ 122) ||
  c = ' ' || c = '.' || c = ',' || c = ':' || c = ';' || c = '!'

/-- A triple-backtick code fence with (possibly empty) language tag. -/
def fenceWrap (tag content : List Char) : List Char :=
  [backtickCh, backtickCh, backtickCh] ++ tag ++ '\n' ::
    (content ++ '\n' :: [backtickCh, backtickCh, backtickCh])

/-- The characters that can start a JSON value in `parseValue`. -/
def goodHead (c : Char) : Bool :=
  c = braceOpenCh || c = bracketOpenCh || c = quoteCh || c = 'n' || c = 't' ||
  c = 'f' || c = '-' || c.isDigit

def trimLeft (cs : List Char) : List Char := cs.dropWhile isTrimWs

def trimRight (cs : List Char) : List Char :=
  (cs.reverse.dropWhile isTrimWs).reverse

/-! ## Model of the VisionDescriber (generateGroqVisionPrompt)

The fetch to the vision endpoint is modelled by a `VisionOutcome`: a
transport error or the firing of the 15-second abort signal
(`.fetchError`), a non-2xx response (`.notOk`, which the code turns into a
thrown error), or a 2xx response whose extracted message content is the given
character list.  The JS field reads `parsed?.productName || dflt` are
`jsGet` (property access with optional chaining; JSON.parse keeps the last
duplicate key, hence the reversed lookup) followed by `orDefault`
(truthiness). -/

def visionTimeoutMs : Nat := 15000

inductive VisionOutcome where
  | fetchError
  | notOk (status : Nat) (body : List Char)
  | ok (content : List Char)

structure VisionCallResult where
  productName : Json
  story : Json
  prompt : Json

def jsTruthy : Json → Bool
  | .null => false
  | .bool b => b
  | .num n => decide (n ≠ 0)
  | .str s => decide (s ≠ [])
  | .arr _ => true
  | .obj _ => true

def jsGet (v : Json) (key : List Char) : Json :=
  match v with
  | .obj ms =>
    match ms.reverse.find? (fun kv => decide (kv.1 = key)) with
    | some kv => kv.2
    | none => Json.null
  | _ => Json.null

def orDefault (x : Json) (dflt : List Char) : Json :=
  if jsTruthy x then x else Json.str dflt

def visionDefaultProductName : List Char := String.toList "Custom Charm"

def visionDefaultStory : List Char := String.toList
  "A beautiful memory captured in a charm, ready to be treasured forever."

def visionDefaultPrompt : List Char := String.toList
  "Convert the input image into a 3D figurine gold charm. Image style- product photography. product centered on a white background. keep a small loop at the top. output should look like a finished jewelry charm, therefore ensure it is a one piece casting, don\x27t keep sharp edges as well. there should be no color used apart from gold."

def visionDefaults : VisionCallResult :=
  ⟨Json.str visionDefaultProductName, Json.str visionDefaultStory,
    Json.str visionDefaultPrompt⟩

def generateGroqVisionPrompt (outcome : VisionOutcome) : VisionCallResult :=
  match outcome with
  | .fetchError => visionDefaults
  | .notOk _ _ => visionDefaults
  | .ok content =>
    match parseJsonFromContent content with
    | none => visionDefaults
    | some parsed =>
      ⟨orDefault (jsGet parsed (String.toList "productName"))
          visionDefaultProductName,
        orDefault (jsGet parsed (String.toList "story")) visionDefaultStory,
        orDefault (jsGet parsed (String.toList "prompt")) visionDefaultPrompt⟩

/-! Concrete environments used by counterexamples and witnesses. -/

def c1Env : GreyscaleEnv :=
  ⟨.ok [0], .err, .err, ⟨none⟩, "r", "p"⟩

def c2Env : GreyscaleEnv :=
  ⟨.err, .err, .err, ⟨some .ok⟩, "r", "p"⟩

-- THEOREMS

/-! ## Helper lemmas -/

theorem uploadImageToR2_cases (buf : List Nat) (filename productId : String)
    (env : R2Env) :
    uploadImageToR2 buf filename productId env = r2DevBase ++ filename ∨
      uploadImageToR2 buf filename productId env = r2PlaceholderBase ++ filename := by
  unfold uploadImageToR2
  rcases env with ⟨_ | b⟩
  · right; rfl
  · cases b
    · left; rfl
    · right; rfl

theorem takeWhile_append_of_all {p : Char → Bool} (xs ys : List Char)
    (h : ∀ x ∈ xs, p x = true) :
    List.takeWhile p (xs ++ ys) = xs ++ List.takeWhile p ys := by
  induction xs with
  | nil => simp
  | cons c t ih =>
    have hc : p c = true := h c (by simp)
    simp only [List.cons_append, List.takeWhile_cons, hc]
    simp [ih fun x hx => h x (by simp [hx])]

theorem lastPathSegment_append (base f : String)
    (hbase : base.toList.reverse.takeWhile (fun c => c ≠ '/') = [])
    (hf : ∀ c ∈ f.toList, c ≠ '/') :
    lastPathSegment (base ++ f) = f := by
  unfold lastPathSegment
  have hdata : (base ++ f).toList = base.toList ++ f.toList := by
    simp [String.toList, String.data_append]
  rw [hdata, List.reverse_append]
  rw [takeWhile_append_of_all _ _ (by
    intro x hx
    have := hf x (by simpa using hx)
    simpa [this])]
  rw [hbase, List.append_nil, List.reverse_reverse]
  cases f
  rfl

/-! ## Claim C1 -/

/-- C1 counterexample: with the transformation fetch succeeding and the R2
bucket binding absent (the storage collaborator unavailable),
`convertToGreyscale` returns the deterministic placeholder URL produced by
`uploadImageToR2`, not the original gold URL, refuting the claim that a
storage-write failure makes it return the gold URL unchanged. -/
theorem c1_counterexample :
    convertToGreyscale "https://gold.example/gold.jpg" c1Env =
        "https://storage.example.com/uploads/r-silver.jpg" ∧
      "https://storage.example.com/uploads/r-silver.jpg" ≠
        "https://gold.example/gold.jpg" := by
  constructor
  · rfl
  · decide

/-- C1 (amended): whenever the byte-producing fallback chain succeeds but the
storage write fails (bucket binding absent, or the put operation throws),
`convertToGreyscale` returns the fixed placeholder URL
`https://storage.example.com/uploads/<uuid>-silver.jpg`; the gold URL itself is
not returned on storage failure. -/
theorem c1_storage_failure_placeholder (goldUrl : String) (env : GreyscaleEnv)
    (bytes : List Nat) (hbytes : greyscaleBytes env = .ok bytes)
    (hstore : env.r2.bucket = none ∨ env.r2.bucket = some PutBehavior.throws) :
    convertToGreyscale goldUrl env =
      r2PlaceholderBase ++ (env.randomUUID ++ "-silver.jpg") := by
  unfold convertToGreyscale
  rw [hbytes]
  unfold uploadImageToR2
  rcases hstore with h | h <;> rw [h]

theorem c1_witness :
    greyscaleBytes c1Env = .ok [0] ∧
      (c1Env.r2.bucket = none ∨ c1Env.r2.bucket = some PutBehavior.throws) ∧
      convertToGreyscale "https://gold.example/gold.jpg" c1Env =
        r2PlaceholderBase ++ (c1Env.randomUUID ++ "-silver.jpg") :=
  ⟨rfl, Or.inl rfl,
    c1_storage_failure_placeholder "https://gold.example/gold.jpg" c1Env [0]
      rfl (Or.inl rfl)⟩

/-! ## Claim C2 -/

/-- C2 counterexample: with the empty string as input gold URL and all three
byte-acquisition fetches failing, `convertToGreyscale` returns the empty
string, refuting the claim that it returns a non-empty URL for every input
gold URL. -/
theorem c2_counterexample : convertToGreyscale "" c2Env = "" := rfl

/-- C2 (amended): `convertToGreyscale` is total (never throws) and, for every
non-empty input gold URL and every behaviour of the remote transformation
endpoint, the direct fetch and the storage collaborator, it returns a
non-empty URL string; in the worst case the result is the input gold URL
itself. -/
theorem eq_empty_of_length_zero (s : String) (h : s.length = 0) : s = "" := by
  cases s with
  | mk data =>
    cases data with
    | nil => rfl
    | cons c t => simp [String.length] at h

theorem append_ne_empty_of_left_ne (a b : String) (ha : a.data ≠ []) :
    a ++ b ≠ "" := by
  intro hempty
  have hdata := congrArg String.data hempty
  rw [String.data_append] at hdata
  exact ha (List.append_eq_nil.mp hdata).1

theorem c2_nonempty (goldUrl : String) (env : GreyscaleEnv)
    (h : goldUrl ≠ "") : convertToGreyscale goldUrl env ≠ "" := by
  unfold convertToGreyscale
  cases hby : greyscaleBytes env with
  | error e => simp only [hby]; exact h
  | ok bytes =>
    simp only [hby]
    rcases uploadImageToR2_cases bytes (env.randomUUID ++ "-silver.jpg")
        env.productId env.r2 with hcase | hcase <;> rw [hcase]
    · exact append_ne_empty_of_left_ne _ _ (by decide)
    · exact append_ne_empty_of_left_ne _ _ (by decide)

theorem c2_witness :
    ("https://gold.example/g.jpg" : String) ≠ "" ∧
      convertToGreyscale "https://gold.example/g.jpg" c2Env ≠ "" :=
  ⟨by decide, c2_nonempty "https://gold.example/g.jpg" c2Env (by decide)⟩

/-! ## Claim C3 -/

/-- C3 counterexample: the one-space instruction `" "` is a non-empty string,
yet the outbound request body's prompt field is the default literal, not the
instruction verbatim, refuting the claim as stated. -/
theorem c3_counterexample :
    (" " : String) ≠ "" ∧
      (generateGoldImageRequest "img" (some " ")).prompt ≠ " " := by
  constructor
  · decide
  · show finalPrompt (some " ") ≠ " "
    decide

/-- C3 (amended): if the instruction's trimmed form is non-empty the outbound
request body's prompt field equals the instruction verbatim; for a missing,
empty or whitespace-only instruction it equals the fixed default literal. -/
theorem c3_prompt_resolution (imageBase64 : String) (p : String) :
    (strTrim p ≠ "" → (generateGoldImageRequest imageBase64 (some p)).prompt = p) ∧
      (strTrim p = "" →
        (generateGoldImageRequest imageBase64 (some p)).prompt = defaultPrompt) ∧
      (generateGoldImageRequest imageBase64 none).prompt = defaultPrompt := by
  refine ⟨?_, ?_, rfl⟩
  · intro htrim
    show finalPrompt (some p) = p
    have hne : p ≠ "" := by
      intro hp
      exact htrim (by rw [hp]; rfl)
    have h2 : 0 < (strTrim p).length := by
      cases hn : (strTrim p).length with
      | zero => exact absurd (eq_empty_of_length_zero _ hn) htrim
      | succ n => omega
    show (if p ≠ "" ∧ 0 < (strTrim p).length then p else defaultPrompt) = p
    rw [if_pos ⟨hne, h2⟩]
  · intro htrim
    have h2 : (strTrim p).length = 0 := by rw [htrim]; rfl
    have hneg : ¬(p ≠ "" ∧ 0 < (strTrim p).length) :=
      fun hc => absurd hc.2 (by omega)
    show (if p ≠ "" ∧ 0 < (strTrim p).length then p else defaultPrompt) =
      defaultPrompt
    rw [if_neg hneg]

theorem c3_witness :
    (strTrim "make a cat" ≠ "" ∧
        (generateGoldImageRequest "b64" (some "make a cat")).prompt = "make a cat") ∧
      (strTrim " " = "" ∧
        (generateGoldImageRequest "b64" (some " ")).prompt = defaultPrompt) ∧
      (strTrim "\x0b" = "" ∧
        (generateGoldImageRequest "b64" (some "\x0b")).prompt = defaultPrompt) :=
  ⟨⟨by decide, (c3_prompt_resolution "b64" "make a cat").1 (by decide)⟩,
    ⟨by decide, (c3_prompt_resolution "b64" " ").2.1 (by decide)⟩,
    ⟨by decide, (c3_prompt_resolution "b64" "\x0b").2.1 (by decide)⟩⟩

/-! ## Claim C4 -/

/-- C4: with the one configured retry of the synthesis call
(`goldImageMaxRetries = 1`) and base delay `d`, an operation that fails on
every attempt is invoked exactly twice, the single backoff delay computed
between the attempts equals `d * 2 ^ 0 = d`, and the error of the last (second)
attempt is rethrown. -/
theorem c4_retry_two_attempts (d : Nat) (op : Nat → Except String String)
    (e0 e1 : String) (h0 : op 0 = .error e0) (h1 : op 1 = .error e1) :
    retryWithBackoff op goldImageMaxRetries d =
      ⟨.error e1, 2, [d]⟩ := by
  unfold retryWithBackoff goldImageMaxRetries retryAux
  rw [h0]
  unfold retryAux
  rw [h1]
  simp

theorem c4_witness :
    (fun _ => Except.error "boom" : Nat → Except String String) 0 =
        .error "boom" ∧
      retryWithBackoff (fun _ => Except.error "boom" : Nat → Except String String)
          goldImageMaxRetries 1000 = ⟨.error "boom", 2, [1000]⟩ :=
  ⟨rfl, c4_retry_two_attempts 1000 (fun _ => Except.error "boom") "boom" "boom"
    rfl rfl⟩

/-! ## Claim C9 -/

/-- C9 counterexample: with the vision stage producing productName
`"Sunset Dog"` and a non-empty story override supplied, the pipeline's label
becomes the literal `"Custom Charm"` instead of the vision output, refuting
the claim that only the summary field is replaced. -/
theorem c9_counterexample :
    charmGenerationInputs "My story"
        ⟨"Sunset Dog", "vision story", "vision prompt"⟩ =
        ⟨"Custom Charm", "My story", "vision prompt"⟩ ∧
      (charmGenerationInputs ""
          ⟨"Sunset Dog", "vision story", "vision prompt"⟩).productName =
        "Sunset Dog" ∧
      ("Custom Charm" : String) ≠ "Sunset Dog" := by
  refine ⟨rfl, rfl, by decide⟩

/-- C9 (amended): a non-empty story override replaces the summary field and
leaves the synthesis instruction equal to the vision stage's prompt, but the
label is forced to the fixed literal `"Custom Charm"` regardless of the vision
stage's output. -/
theorem c9_override_effect (storyOverride : String)
    (visionResult : VisionPromptResult) (h : storyOverride ≠ "") :
    charmGenerationInputs storyOverride visionResult =
      ⟨"Custom Charm", storyOverride, visionResult.prompt⟩ := by
  unfold charmGenerationInputs nameAndStory
  rw [if_pos h]

theorem c9_witness :
    ("My story" : String) ≠ "" ∧
      charmGenerationInputs "My story"
          ⟨"Vision Name", "vision story", "vision prompt"⟩ =
        ⟨"Custom Charm", "My story", "vision prompt"⟩ :=
  ⟨by decide,
    c9_override_effect "My story" ⟨"Vision Name", "vision story", "vision prompt"⟩
      (by decide)⟩

/-! ## Claim C10 -/

/-- C10 counterexample: for the filename `"a/b.jpg"` (which contains a slash),
the URL returned with the bucket binding absent has final path segment
`"b.jpg"`, not the full filename, refuting the claim as universally stated
over all filenames. -/
theorem c10_counterexample :
    lastPathSegment (uploadImageToR2 [] "a/b.jpg" "p" ⟨none⟩) = "b.jpg" ∧
      ("b.jpg" : String) ≠ "a/b.jpg" := by
  constructor
  · rfl
  · decide

/-- C10 (amended): `uploadImageToR2` is total (never throws) and always
returns one of two URLs obtained by appending the filename to a fixed base
ending in `/` — so whenever the filename contains no `/`, the final path
segment of the returned URL is exactly the filename — and whenever the bucket
binding is absent or the put operation throws, the returned URL is exactly the
fixed placeholder `https://storage.example.com/uploads/<filename>`, which
depends on no caller input other than the filename. -/
theorem c10_upload_url (buf : List Nat) (filename productId : String)
    (env : R2Env) :
    (uploadImageToR2 buf filename productId env = r2DevBase ++ filename ∨
        uploadImageToR2 buf filename productId env =
          r2PlaceholderBase ++ filename) ∧
      ((∀ c ∈ filename.toList, c ≠ '/') →
        lastPathSegment (uploadImageToR2 buf filename productId env) = filename) ∧
      ((env.bucket = none ∨ env.bucket = some PutBehavior.throws) →
        uploadImageToR2 buf filename productId env =
          "https://storage.example.com/uploads/" ++ filename) := by
  refine ⟨uploadImageToR2_cases buf filename productId env, ?_, ?_⟩
  · intro hf
    rcases uploadImageToR2_cases buf filename productId env with hcase | hcase <;>
      rw [hcase]
    · exact lastPathSegment_append r2DevBase filename (by decide) hf
    · exact lastPathSegment_append r2PlaceholderBase filename (by decide) hf
  · intro hb
    unfold uploadImageToR2
    rcases hb with h | h <;> rw [h]
    · rfl
    · rfl

theorem c10_witness :
    (∀ c ∈ ("x-silver.jpg" : String).toList, c ≠ '/') ∧
      lastPathSegment (uploadImageToR2 [7] "x-silver.jpg" "p" ⟨some .throws⟩) =
        "x-silver.jpg" ∧
      uploadImageToR2 [7] "x-silver.jpg" "p" ⟨some .throws⟩ =
        "https://storage.example.com/uploads/" ++ "x-silver.jpg" :=
  ⟨by decide,
    (c10_upload_url [7] "x-silver.jpg" "p" ⟨some .throws⟩).2.1 (by decide),
    (c10_upload_url [7] "x-silver.jpg" "p" ⟨some .throws⟩).2.2
      (Or.inr rfl)⟩

/-! ## Loop characterisation lemmas for the image pipeline -/

theorem write4_eval (a : Nat → Nat) (base : Nat) (vals : Nat → Nat) (q : Nat) :
    write4 a base vals q =
      if base ≤ q ∧ q < base + 4 then vals (q - base) else a q := by
  unfold write4 updN
  by_cases h3 : q = base + 3
  · rw [if_pos h3, if_pos (show base ≤ q ∧ q < base + 4 by omega)]
    congr 1
    omega
  · rw [if_neg h3]
    by_cases h2 : q = base + 2
    · rw [if_pos h2, if_pos (show base ≤ q ∧ q < base + 4 by omega)]
      congr 1
      omega
    · rw [if_neg h2]
      by_cases h1 : q = base + 1
      · rw [if_pos h1, if_pos (show base ≤ q ∧ q < base + 4 by omega)]
        congr 1
        omega
      · rw [if_neg h1]
        by_cases h0 : q = base
        · rw [if_pos h0, if_pos (show base ≤ q ∧ q < base + 4 by omega)]
          congr 1
          omega
        · rw [if_neg h0, if_neg (show ¬(base ≤ q ∧ q < base + 4) by omega)]

theorem foldl_write4_outside {α : Type} (idx : α → Nat) (vals : α → Nat → Nat)
    (l : List α) (a : Nat → Nat) (q : Nat)
    (h : ∀ e ∈ l, q < idx e ∨ idx e + 4 ≤ q) :
    (l.foldl (fun acc e => write4 acc (idx e) (vals e)) a) q = a q := by
  induction l generalizing a with
  | nil => rfl
  | cons hd tl ih =>
    rw [List.foldl_cons]
    rw [ih _ fun e he => h e (by simp [he])]
    rw [write4_eval]
    rw [if_neg]
    have := h hd (by simp)
    omega

theorem foldl_write4_inside {α : Type} (idx : α → Nat) (vals : α → Nat → Nat)
    (l : List α) (hnd : l.Nodup)
    (hdisj : ∀ e ∈ l, ∀ f ∈ l, e ≠ f → idx e + 4 ≤ idx f ∨ idx f + 4 ≤ idx e)
    (e : α) (he : e ∈ l) (q : Nat) (hq1 : idx e ≤ q) (hq2 : q < idx e + 4)
    (a : Nat → Nat) :
    (l.foldl (fun acc g => write4 acc (idx g) (vals g)) a) q =
      vals e (q - idx e) := by
  induction l generalizing a with
  | nil => cases he
  | cons hd tl ih =>
    rw [List.foldl_cons]
    rcases List.mem_cons.mp he with rfl | hetl
    · rw [foldl_write4_outside]
      · rw [write4_eval, if_pos ⟨hq1, hq2⟩]
      · intro f hf
        have hfe : e ≠ f := by
          intro hcontra
          rw [hcontra] at hnd
          exact (List.nodup_cons.mp hnd).1 hf
        have := hdisj e (by simp) f (by simp [hf]) hfe
        omega
    · exact ih (List.nodup_cons.mp hnd).2
        (fun x hx y hy hxy => hdisj x (by simp [hx]) y (by simp [hy]) hxy)
        hetl _

theorem whiteFill_eval (numPixels q : Nat) :
    whiteFill numPixels q = if q < 4 * numPixels then 255 else 0 := by
  unfold whiteFill
  by_cases h : q < 4 * numPixels
  · rw [if_pos h]
    have := foldl_write4_inside (fun k => 4 * k) (fun _ _ => 255)
      (List.range numPixels) (List.nodup_range numPixels)
      (by
        intro e he f hf hef
        simp only [List.mem_range] at he hf
        show 4 * e + 4 ≤ 4 * f ∨ 4 * f + 4 ≤ 4 * e
        omega)
      (q / 4) (by rw [List.mem_range]; omega) q
      (show 4 * (q / 4) ≤ q by omega)
      (show q < 4 * (q / 4) + 4 by omega)
      (fun _ => 0)
    exact this
  · rw [if_neg h]
    exact foldl_write4_outside _ _ _ _ _
      (by
        intro e he
        simp only [List.mem_range] at he
        show q < 4 * e ∨ 4 * e + 4 ≤ q
        omega)

theorem foldl_nested_eq_flatMap {α β γ : Type} (outer : List α)
    (inner : α → List β) (g : γ → β → γ) (a : γ) :
    outer.foldl (fun acc y => (inner y).foldl g acc) a =
      (outer.flatMap inner).foldl g a := by
  induction outer generalizing a with
  | nil => rfl
  | cons hd tl ih =>
    rw [List.foldl_cons, List.flatMap_cons, List.foldl_append, ih]

theorem pasteLoop_eq_pairs (resized : Nat → Nat)
    (scaledW scaledH offsetX offsetY : Nat) (a : Nat → Nat) :
    pasteLoop resized scaledW scaledH offsetX offsetY a =
      (pastePairs scaledW scaledH).foldl
        (pasteStep resized scaledW offsetX offsetY) a := by
  unfold pasteLoop pastePairs
  rw [← foldl_nested_eq_flatMap]
  congr 1
  funext acc y
  rw [List.foldl_map]

theorem mem_pastePairs (scaledW scaledH : Nat) (yx : Nat × Nat) :
    yx ∈ pastePairs scaledW scaledH ↔ yx.1 < scaledH ∧ yx.2 < scaledW := by
  unfold pastePairs
  rw [List.mem_flatMap]
  constructor
  · rintro ⟨y, hy, hmem⟩
    rw [List.mem_map] at hmem
    rcases hmem with ⟨x, hx, rfl⟩
    rw [List.mem_range] at hy hx
    exact ⟨hy, hx⟩
  · rintro ⟨h1, h2⟩
    exact ⟨yx.1, by rw [List.mem_range]; exact h1,
      by rw [List.mem_map]; exact ⟨yx.2, by rw [List.mem_range]; exact h2, rfl⟩⟩

theorem nodup_pastePairs (scaledW scaledH : Nat) :
    (pastePairs scaledW scaledH).Nodup := by
  unfold pastePairs
  rw [List.nodup_flatMap]
  constructor
  · intro y hy
    exact (List.nodup_range scaledW).map (fun x x' hxx => by
      simpa using hxx)
  · apply List.Pairwise.imp ?_ (List.pairwise_lt_range scaledH)
    intro y y' hyy p hp hp'
    rw [List.mem_map] at hp hp'
    rcases hp with ⟨x, _, rfl⟩
    rcases hp' with ⟨x', _, hx'⟩
    have : y = y' := by
      have := congrArg Prod.fst hx'
      simpa using this.symm
    omega

theorem pasteStep_def (resized : Nat → Nat) (scaledW offsetX offsetY : Nat) :
    pasteStep resized scaledW offsetX offsetY = fun acc yx =>
      write4 acc (((yx.1 + offsetY) * 1024 + (yx.2 + offsetX)) * 4)
        (fun c => resized ((yx.1 * scaledW + yx.2) * 4 + c)) := rfl

theorem jsRoundNat_le_1024 (q : ℚ) (h : q ≤ 1024) : jsRoundNat q ≤ 1024 := by
  unfold jsRoundNat jsRound
  rw [Int.toNat_le]
  have h1 : q + 1 / 2 ≤ (1024 : ℚ) + 1 / 2 := by linarith
  have h2 : Int.floor ((1024 : ℚ) + 1 / 2) = 1024 := by
    rw [Int.floor_eq_iff] <;> norm_num
  calc Int.floor (q + 1 / 2) ≤ Int.floor ((1024 : ℚ) + 1 / 2) :=
        Int.floor_le_floor h1
    _ = 1024 := h2

theorem scaledWidth_le (w h : Nat) : scaledWidth w h ≤ 1024 := by
  unfold scaledWidth targetSize
  split
  · exact le_refl 1024
  · apply jsRoundNat_le_1024
    rcases Nat.eq_zero_or_pos h with hz | hpos
    · subst hz
      norm_num
    · have hwh : (w : ℚ) / (h : ℚ) ≤ 1 := by
        rw [div_le_one (by exact_mod_cast hpos)]
        exact_mod_cast by omega
      nlinarith

theorem scaledHeight_le (w h : Nat) : scaledHeight w h ≤ 1024 := by
  unfold scaledHeight targetSize
  split
  · apply jsRoundNat_le_1024
    rcases Nat.eq_zero_or_pos h with hz | hpos
    · subst hz
      norm_num
    · have hwh : (1 : ℚ) ≤ (w : ℚ) / (h : ℚ) := by
        rw [le_div_iff (by exact_mod_cast hpos)]
        have : h ≤ w := by omega
        exact_mod_cast by simpa using this
      exact div_le_self (by norm_num) hwh
  · exact le_refl 1024

theorem clampStore_le (q : ℚ) : clampStore q ≤ 255 := by
  have h255 : ¬(255 : ℚ) ≤ q → Int.floor q < 255 := fun h => by
    have hfl : (Int.floor q : ℚ) ≤ q := Int.floor_le q
    by_contra hcontra
    push_neg at hcontra h
    have hc : (255 : ℚ) ≤ (Int.floor q : ℚ) := by exact_mod_cast hcontra
    linarith
  unfold clampStore
  split_ifs with h1 h2 h3 h4 h5
  · omega
  · omega
  · have := h255 h2; omega
  · have := h255 h2; omega
  · have := h255 h2; omega
  · have := h255 h2; omega

theorem bilinearResize_le (srcData : Nat → Nat) (sw sh dw dh idx : Nat) :
    bilinearResize srcData sw sh dw dh idx ≤ 255 := by
  unfold bilinearResize
  split
  · exact clampStore_le _
  · omega

theorem whiteFill_le (numPixels q : Nat) : whiteFill numPixels q ≤ 255 := by
  rw [whiteFill_eval]
  split_ifs <;> omega

theorem foldl_write4_le {α : Type} (idx : α → Nat) (vals : α → Nat → Nat)
    (hvals : ∀ e c, vals e c ≤ 255) (l : List α) (a : Nat → Nat)
    (ha : ∀ q, a q ≤ 255) (q : Nat) :
    (l.foldl (fun acc e => write4 acc (idx e) (vals e)) a) q ≤ 255 := by
  induction l generalizing a with
  | nil => exact ha q
  | cons hd tl ih =>
    rw [List.foldl_cons]
    apply ih
    intro r
    rw [write4_eval]
    split_ifs
    · exact hvals hd _
    · exact ha r

theorem paddedStage_le (img : RgbaImage) (q : Nat) :
    paddedStage img q ≤ 255 := by
  unfold paddedStage
  rw [pasteLoop_eq_pairs, pasteStep_def]
  exact foldl_write4_le _ _ (fun e c => bilinearResize_le _ _ _ _ _ _)
    _ _ (fun r => whiteFill_le (targetSize * targetSize) r) q

theorem pasteLoop_pixel (resized : Nat → Nat) (sW sH offX offY : Nat)
    (a : Nat → Nat) (hX : offX + sW ≤ 1024) (hY : offY + sH ≤ 1024)
    (p c : Nat) (hp : p < 1024 * 1024) (hc : c < 4) :
    pasteLoop resized sW sH offX offY a (4 * p + c) =
      if offX ≤ p % 1024 ∧ p % 1024 < offX + sW ∧
          offY ≤ p / 1024 ∧ p / 1024 < offY + sH
      then resized (((p / 1024 - offY) * sW + (p % 1024 - offX)) * 4 + c)
      else a (4 * p + c) := by
  rw [pasteLoop_eq_pairs, pasteStep_def]
  have hdisj : ∀ e ∈ pastePairs sW sH, ∀ f ∈ pastePairs sW sH, e ≠ f →
      ((e.1 + offY) * 1024 + (e.2 + offX)) * 4 + 4 ≤
          ((f.1 + offY) * 1024 + (f.2 + offX)) * 4 ∨
        ((f.1 + offY) * 1024 + (f.2 + offX)) * 4 + 4 ≤
          ((e.1 + offY) * 1024 + (e.2 + offX)) * 4 := by
    intro e he f hf hef
    rcases e with ⟨e1, e2⟩
    rcases f with ⟨f1, f2⟩
    rw [mem_pastePairs] at he hf
    have hcomp : e1 ≠ f1 ∨ e2 ≠ f2 := by
      by_contra hcon
      push_neg at hcon
      exact hef (by rw [hcon.1, hcon.2])
    simp only at he hf hcomp ⊢
    rcases hcomp with hne | hne <;> omega
  by_cases hin : offX ≤ p % 1024 ∧ p % 1024 < offX + sW ∧
      offY ≤ p / 1024 ∧ p / 1024 < offY + sH
  · rw [if_pos hin]
    have hmem : (p / 1024 - offY, p % 1024 - offX) ∈ pastePairs sW sH := by
      rw [mem_pastePairs]
      exact ⟨by omega, by omega⟩
    have hle1 : ((p / 1024 - offY + offY) * 1024 + (p % 1024 - offX + offX)) * 4 ≤
        4 * p + c := by omega
    have hle2 : 4 * p + c <
        ((p / 1024 - offY + offY) * 1024 + (p % 1024 - offX + offX)) * 4 + 4 := by
      omega
    refine Eq.trans (foldl_write4_inside
      (fun yx : Nat × Nat => ((yx.1 + offY) * 1024 + (yx.2 + offX)) * 4)
      (fun yx c2 => resized ((yx.1 * sW + yx.2) * 4 + c2))
      (pastePairs sW sH) (nodup_pastePairs sW sH) hdisj
      (p / 1024 - offY, p % 1024 - offX) hmem (4 * p + c) hle1 hle2 a) ?_
    show resized (((p / 1024 - offY) * sW + (p % 1024 - offX)) * 4 +
        (4 * p + c -
          ((p / 1024 - offY + offY) * 1024 + (p % 1024 - offX + offX)) * 4)) =
      resized (((p / 1024 - offY) * sW + (p % 1024 - offX)) * 4 + c)
    congr 1
    omega
  · rw [if_neg hin]
    apply foldl_write4_outside
      (fun yx : Nat × Nat => ((yx.1 + offY) * 1024 + (yx.2 + offX)) * 4)
      (fun yx c2 => resized ((yx.1 * sW + yx.2) * 4 + c2))
    intro e he
    rcases e with ⟨y, x⟩
    rw [mem_pastePairs] at he
    simp only at he
    show 4 * p + c < ((y + offY) * 1024 + (x + offX)) * 4 ∨
      ((y + offY) * 1024 + (x + offX)) * 4 + 4 ≤ 4 * p + c
    by_contra hq
    push_neg at hq
    apply hin
    have hxlt : x + offX < 1024 := by omega
    have hpe : (y + offY) * 1024 + (x + offX) = p := by omega
    refine ⟨by omega, by omega, by omega, by omega⟩

theorem paddedStage_pixel (img : RgbaImage) (p c : Nat)
    (hp : p < 1024 * 1024) (hc : c < 4) :
    paddedStage img (4 * p + c) =
      if (1024 - scaledWidth img.width img.height) / 2 ≤ p % 1024 ∧
          p % 1024 < (1024 - scaledWidth img.width img.height) / 2 +
            scaledWidth img.width img.height ∧
          (1024 - scaledHeight img.width img.height) / 2 ≤ p / 1024 ∧
          p / 1024 < (1024 - scaledHeight img.width img.height) / 2 +
            scaledHeight img.width img.height
      then bilinearResize img.data img.width img.height
          (scaledWidth img.width img.height) (scaledHeight img.width img.height)
          (((p / 1024 - (1024 - scaledHeight img.width img.height) / 2) *
              scaledWidth img.width img.height +
            (p % 1024 - (1024 - scaledWidth img.width img.height) / 2)) * 4 + c)
      else 255 := by
  have hW := scaledWidth_le img.width img.height
  have hH := scaledHeight_le img.width img.height
  unfold paddedStage
  simp only [targetSize]
  rw [pasteLoop_pixel _ _ _ _ _ _ (by omega) (by omega) p c hp hc]
  rw [whiteFill_eval, if_pos (show 4 * p + c < 4 * (1024 * 1024) by omega)]

theorem grayWrite_eval (a : Nat → Nat) (k q : Nat) :
    grayWrite a k q =
      if q / 4 = k ∧ q % 4 < 3 then grayValue a k else a q := by
  unfold grayWrite updN
  by_cases h2 : q = 4 * k + 2
  · rw [if_pos h2, if_pos (show q / 4 = k ∧ q % 4 < 3 by omega)]
  · rw [if_neg h2]
    by_cases h1 : q = 4 * k + 1
    · rw [if_pos h1, if_pos (show q / 4 = k ∧ q % 4 < 3 by omega)]
    · rw [if_neg h1]
      by_cases h0 : q = 4 * k
      · rw [if_pos h0, if_pos (show q / 4 = k ∧ q % 4 < 3 by omega)]
      · rw [if_neg h0, if_neg (show ¬(q / 4 = k ∧ q % 4 < 3) by omega)]

theorem grayValue_write_ne (a : Nat → Nat) (k p : Nat) (h : p ≠ k) :
    grayValue (grayWrite a k) p = grayValue a p := by
  unfold grayValue
  rw [grayWrite_eval, grayWrite_eval, grayWrite_eval]
  rw [if_neg (show ¬(4 * p / 4 = k ∧ 4 * p % 4 < 3) by omega),
    if_neg (show ¬((4 * p + 1) / 4 = k ∧ (4 * p + 1) % 4 < 3) by omega),
    if_neg (show ¬((4 * p + 2) / 4 = k ∧ (4 * p + 2) % 4 < 3) by omega)]

theorem foldl_grayWrite_eval (l : List Nat) (hnd : l.Nodup) (a : Nat → Nat)
    (q : Nat) :
    (l.foldl grayWrite a) q =
      if q / 4 ∈ l ∧ q % 4 < 3 then grayValue a (q / 4) else a q := by
  induction l generalizing a with
  | nil => simp
  | cons k tl ih =>
    rw [List.foldl_cons, ih (List.nodup_cons.mp hnd).2]
    by_cases h1 : q / 4 ∈ tl ∧ q % 4 < 3
    · rw [if_pos h1]
      have hk : q / 4 ≠ k := by
        intro hc
        exact (List.nodup_cons.mp hnd).1 (hc ▸ h1.1)
      rw [grayValue_write_ne a k (q / 4) hk,
        if_pos ⟨List.mem_cons_of_mem _ h1.1, h1.2⟩]
    · rw [if_neg h1, grayWrite_eval]
      by_cases h2 : q / 4 = k ∧ q % 4 < 3
      · rw [if_pos h2, if_pos (⟨by rw [h2.1]; exact List.mem_cons_self k tl,
          h2.2⟩ : q / 4 ∈ k :: tl ∧ q % 4 < 3), h2.1]
      · rw [if_neg h2, if_neg (fun hc => by
          rcases List.mem_cons.mp hc.1 with h | h
          · exact h2 ⟨h, hc.2⟩
          · exact h1 ⟨h, hc.2⟩)]

theorem grayLoop_eval (a : Nat → Nat) (q : Nat) :
    grayLoop a (targetSize * targetSize) q =
      if q / 4 < 1024 * 1024 ∧ q % 4 < 3 then grayValue a (q / 4) else a q := by
  unfold grayLoop
  rw [foldl_grayWrite_eval (List.range (targetSize * targetSize))
    (List.nodup_range _) a q]
  simp only [List.mem_range, targetSize]

theorem floor_rat_eq (z : ℤ) (q : ℚ) (h1 : (z : ℚ) ≤ q) (h2 : q < z + 1) :
    Int.floor q = z := by
  rw [Int.floor_eq_iff]
  exact ⟨h1, h2⟩

theorem jsRound_255 : jsRound 255 = 255 := by
  unfold jsRound
  apply floor_rat_eq
  · norm_num
  · norm_num

theorem luma_white : luma 255 255 255 = 255 := by
  unfold luma
  norm_num

theorem grayValue_white (a : Nat → Nat) (k : Nat) (h0 : a (4 * k) = 255)
    (h1 : a (4 * k + 1) = 255) (h2 : a (4 * k + 2) = 255) :
    grayValue a k = 255 := by
  unfold grayValue
  rw [h0, h1, h2]
  norm_num [luma_white, jsRound_255]
  rfl

theorem jsRound_nonneg (q : ℚ) (h : 0 ≤ q) : 0 ≤ jsRound q := by
  unfold jsRound
  rw [Int.le_floor]
  push_cast
  linarith

theorem jsRound_le_255 (q : ℚ) (h : q ≤ 255) : jsRound q ≤ 255 := by
  unfold jsRound
  have h2 : Int.floor ((255 : ℚ) + 1 / 2) = 255 := by
    apply floor_rat_eq <;> norm_num
  calc Int.floor (q + 1 / 2) ≤ Int.floor ((255 : ℚ) + 1 / 2) :=
        Int.floor_le_floor (by linarith)
    _ = 255 := h2

theorem luma_nonneg (r g b : ℚ) (hr : 0 ≤ r) (hg : 0 ≤ g) (hb : 0 ≤ b) :
    0 ≤ luma r g b := by
  unfold luma
  positivity

theorem luma_le_255 (r g b : ℚ) (hr : r ≤ 255) (hg : g ≤ 255) (hb : b ≤ 255) :
    luma r g b ≤ 255 := by
  unfold luma
  linarith

theorem clampStoreInt_eq (n : ℤ) (h0 : 0 ≤ n) (h255 : n ≤ 255) :
    (clampStoreInt n : ℤ) = n := by
  unfold clampStoreInt
  split_ifs <;> omega

/-- The grayscale value of any pixel of any byte array bounded by 255 is the
rounded luma itself. -/
theorem grayValue_cast (a : Nat → Nat) (k : Nat) (hb : ∀ q, a q ≤ 255) :
    (grayValue a k : ℤ) =
      jsRound (luma (a (4 * k)) (a (4 * k + 1)) (a (4 * k + 2))) := by
  unfold grayValue
  apply clampStoreInt_eq
  · apply jsRound_nonneg
    apply luma_nonneg <;> positivity
  · apply jsRound_le_255
    apply luma_le_255 <;> exact_mod_cast hb _

theorem paddedStage_outside (img : RgbaImage) (p c : Nat)
    (hp : p < 1024 * 1024) (hc : c < 4)
    (hout : ¬((1024 - scaledWidth img.width img.height) / 2 ≤ p % 1024 ∧
        p % 1024 < (1024 - scaledWidth img.width img.height) / 2 +
          scaledWidth img.width img.height ∧
        (1024 - scaledHeight img.width img.height) / 2 ≤ p / 1024 ∧
        p / 1024 < (1024 - scaledHeight img.width img.height) / 2 +
          scaledHeight img.width img.height)) :
    paddedStage img (4 * p + c) = 255 := by
  rw [paddedStage_pixel img p c hp hc, if_neg hout]

theorem paddedStage_inside (img : RgbaImage) (p c : Nat)
    (hp : p < 1024 * 1024) (hc : c < 4)
    (hin : (1024 - scaledWidth img.width img.height) / 2 ≤ p % 1024 ∧
        p % 1024 < (1024 - scaledWidth img.width img.height) / 2 +
          scaledWidth img.width img.height ∧
        (1024 - scaledHeight img.width img.height) / 2 ≤ p / 1024 ∧
        p / 1024 < (1024 - scaledHeight img.width img.height) / 2 +
          scaledHeight img.width img.height) :
    paddedStage img (4 * p + c) = bilinearResize img.data img.width img.height
      (scaledWidth img.width img.height) (scaledHeight img.width img.height)
      (((p / 1024 - (1024 - scaledHeight img.width img.height) / 2) *
          scaledWidth img.width img.height +
        (p % 1024 - (1024 - scaledWidth img.width img.height) / 2)) * 4 + c) := by
  rw [paddedStage_pixel img p c hp hc, if_pos hin]

/-! ## Claim C7 -/

/-- C7: for every decoded input image, the local fallback produces an output
of exactly 1024 x 1024 pixels; every byte of every pixel outside the centred
paste region (offsets `(1024 - scaled) / 2`, floor division) is 255 — an
opaque white canvas — and each pixel inside the region carries the uniformly
scaled source image: its colour channels are the grayscaled values of the
corresponding `bilinearResize` output pixel and its alpha channel is that
pixel's alpha. -/
theorem c7_fallback_geometry (img : RgbaImage) (hw : 0 < img.width)
    (hh : 0 < img.height) :
    (resizeAndGrayscaleTo1024Core img).width = 1024 ∧
      (resizeAndGrayscaleTo1024Core img).height = 1024 ∧
      (∀ px py c, px < 1024 → py < 1024 → c < 4 →
        ¬((1024 - scaledWidth img.width img.height) / 2 ≤ px ∧
            px < (1024 - scaledWidth img.width img.height) / 2 +
              scaledWidth img.width img.height ∧
            (1024 - scaledHeight img.width img.height) / 2 ≤ py ∧
            py < (1024 - scaledHeight img.width img.height) / 2 +
              scaledHeight img.width img.height) →
        (resizeAndGrayscaleTo1024Core img).data ((py * 1024 + px) * 4 + c) =
          255) ∧
      (∀ x y, x < scaledWidth img.width img.height →
        y < scaledHeight img.width img.height →
        (∀ c, c < 3 →
          (resizeAndGrayscaleTo1024Core img).data
              (((y + (1024 - scaledHeight img.width img.height) / 2) * 1024 +
                (x + (1024 - scaledWidth img.width img.height) / 2)) * 4 + c) =
            clampStoreInt (jsRound (luma
              (bilinearResize img.data img.width img.height
                (scaledWidth img.width img.height)
                (scaledHeight img.width img.height)
                ((y * scaledWidth img.width img.height + x) * 4))
              (bilinearResize img.data img.width img.height
                (scaledWidth img.width img.height)
                (scaledHeight img.width img.height)
                ((y * scaledWidth img.width img.height + x) * 4 + 1))
              (bilinearResize img.data img.width img.height
                (scaledWidth img.width img.height)
                (scaledHeight img.width img.height)
                ((y * scaledWidth img.width img.height + x) * 4 + 2))))) ∧
        (resizeAndGrayscaleTo1024Core img).data
            (((y + (1024 - scaledHeight img.width img.height) / 2) * 1024 +
              (x + (1024 - scaledWidth img.width img.height) / 2)) * 4 + 3) =
          bilinearResize img.data img.width img.height
            (scaledWidth img.width img.height)
            (scaledHeight img.width img.height)
            ((y * scaledWidth img.width img.height + x) * 4 + 3)) := by
  have hWle := scaledWidth_le img.width img.height
  have hHle := scaledHeight_le img.width img.height
  have hdata : (resizeAndGrayscaleTo1024Core img).data =
      grayLoop (paddedStage img) (targetSize * targetSize) := by
    simp only [resizeAndGrayscaleTo1024Core]
  refine ⟨rfl, rfl, ?_, ?_⟩
  · intro px py c hpx hpy hc hout
    rw [show (py * 1024 + px) * 4 + c = 4 * (py * 1024 + px) + c by ring]
    have hp : py * 1024 + px < 1024 * 1024 := by omega
    have hmod : (py * 1024 + px) % 1024 = px := by omega
    have hdiv : (py * 1024 + px) / 1024 = py := by omega
    have hout2 : ¬((1024 - scaledWidth img.width img.height) / 2 ≤
        (py * 1024 + px) % 1024 ∧
        (py * 1024 + px) % 1024 < (1024 - scaledWidth img.width img.height) / 2 +
          scaledWidth img.width img.height ∧
        (1024 - scaledHeight img.width img.height) / 2 ≤
          (py * 1024 + px) / 1024 ∧
        (py * 1024 + px) / 1024 < (1024 - scaledHeight img.width img.height) / 2 +
          scaledHeight img.width img.height) := by
      rw [hmod, hdiv]
      exact hout
    rw [hdata, grayLoop_eval]
    by_cases hc3 : c < 3
    · rw [if_pos ⟨by omega, by omega⟩,
        show (4 * (py * 1024 + px) + c) / 4 = py * 1024 + px by omega]
      have h0 := paddedStage_outside img (py * 1024 + px) 0 hp (by omega) hout2
      have h1 := paddedStage_outside img (py * 1024 + px) 1 hp (by omega) hout2
      have h2 := paddedStage_outside img (py * 1024 + px) 2 hp (by omega) hout2
      simp only [add_zero] at h0
      exact grayValue_white _ _ h0 h1 h2
    · rw [if_neg (by omega)]
      have hc3e : c = 3 := by omega
      rw [hc3e]
      exact paddedStage_outside img (py * 1024 + px) 3 hp (by omega) hout2
  · intro x y hx hy
    have hp : (y + (1024 - scaledHeight img.width img.height) / 2) * 1024 +
        (x + (1024 - scaledWidth img.width img.height) / 2) < 1024 * 1024 := by
      omega
    have hmod : ((y + (1024 - scaledHeight img.width img.height) / 2) * 1024 +
        (x + (1024 - scaledWidth img.width img.height) / 2)) % 1024 =
        x + (1024 - scaledWidth img.width img.height) / 2 := by omega
    have hdiv : ((y + (1024 - scaledHeight img.width img.height) / 2) * 1024 +
        (x + (1024 - scaledWidth img.width img.height) / 2)) / 1024 =
        y + (1024 - scaledHeight img.width img.height) / 2 := by omega
    have hin : (1024 - scaledWidth img.width img.height) / 2 ≤
        ((y + (1024 - scaledHeight img.width img.height) / 2) * 1024 +
          (x + (1024 - scaledWidth img.width img.height) / 2)) % 1024 ∧
        ((y + (1024 - scaledHeight img.width img.height) / 2) * 1024 +
          (x + (1024 - scaledWidth img.width img.height) / 2)) % 1024 <
          (1024 - scaledWidth img.width img.height) / 2 +
            scaledWidth img.width img.height ∧
        (1024 - scaledHeight img.width img.height) / 2 ≤
          ((y + (1024 - scaledHeight img.width img.height) / 2) * 1024 +
            (x + (1024 - scaledWidth img.width img.height) / 2)) / 1024 ∧
        ((y + (1024 - scaledHeight img.width img.height) / 2) * 1024 +
          (x + (1024 - scaledWidth img.width img.height) / 2)) / 1024 <
          (1024 - scaledHeight img.width img.height) / 2 +
            scaledHeight img.width img.height := by
      refine ⟨by omega, by omega, by omega, by omega⟩
    have hread : ∀ c, c < 4 →
        paddedStage img (4 * ((y + (1024 - scaledHeight img.width img.height) / 2) * 1024 +
          (x + (1024 - scaledWidth img.width img.height) / 2)) + c) =
        bilinearResize img.data img.width img.height
          (scaledWidth img.width img.height) (scaledHeight img.width img.height)
          ((y * scaledWidth img.width img.height + x) * 4 + c) := by
      intro c hc
      rw [paddedStage_inside img _ c hp hc hin, hmod, hdiv,
        Nat.add_sub_cancel, Nat.add_sub_cancel]
    refine ⟨?_, ?_⟩
    · intro c hc
      rw [show ((y + (1024 - scaledHeight img.width img.height) / 2) * 1024 +
          (x + (1024 - scaledWidth img.width img.height) / 2)) * 4 + c =
          4 * ((y + (1024 - scaledHeight img.width img.height) / 2) * 1024 +
          (x + (1024 - scaledWidth img.width img.height) / 2)) + c by ring]
      rw [hdata, grayLoop_eval, if_pos ⟨by omega, by omega⟩,
        show (4 * ((y + (1024 - scaledHeight img.width img.height) / 2) * 1024 +
          (x + (1024 - scaledWidth img.width img.height) / 2)) + c) / 4 =
          (y + (1024 - scaledHeight img.width img.height) / 2) * 1024 +
          (x + (1024 - scaledWidth img.width img.height) / 2) by omega]
      unfold grayValue
      have h0 := hread 0 (by omega)
      have h1 := hread 1 (by omega)
      have h2 := hread 2 (by omega)
      simp only [add_zero] at h0
      rw [h0, h1, h2]
    · rw [show ((y + (1024 - scaledHeight img.width img.height) / 2) * 1024 +
          (x + (1024 - scaledWidth img.width img.height) / 2)) * 4 + 3 =
          4 * ((y + (1024 - scaledHeight img.width img.height) / 2) * 1024 +
          (x + (1024 - scaledWidth img.width img.height) / 2)) + 3 by ring]
      rw [hdata, grayLoop_eval, if_neg (by omega)]
      exact hread 3 (by omega)

theorem c7_witness :
    (0 : Nat) < (RgbaImage.mk 1 1 (fun _ => 0)).width ∧
      (resizeAndGrayscaleTo1024Core (RgbaImage.mk 1 1 (fun _ => 0))).width =
        1024 ∧
      (resizeAndGrayscaleTo1024Core (RgbaImage.mk 1 1 (fun _ => 0))).height =
        1024 :=
  ⟨by decide,
    (c7_fallback_geometry (RgbaImage.mk 1 1 (fun _ => 0)) (by decide)
      (by decide)).1,
    (c7_fallback_geometry (RgbaImage.mk 1 1 (fun _ => 0)) (by decide)
      (by decide)).2.1⟩

/-! ## Claim C8 -/

/-- C8: in the fallback path, after the grayscale conversion every pixel of
the canvas satisfies `R = G = B = Math.round(0.299 r + 0.587 g + 0.114 b)`
where `r`, `g`, `b` are that pixel's pre-conversion channel values (the
composited `paddedStage` bytes), and the alpha channel of every pixel is
unchanged by the conversion. -/
theorem c8_grayscale_pixels (img : RgbaImage) (p : Nat)
    (hp : p < 1024 * 1024) :
    ((resizeAndGrayscaleTo1024Core img).data (4 * p) : ℤ) =
        jsRound (luma (paddedStage img (4 * p)) (paddedStage img (4 * p + 1))
          (paddedStage img (4 * p + 2))) ∧
      (resizeAndGrayscaleTo1024Core img).data (4 * p + 1) =
        (resizeAndGrayscaleTo1024Core img).data (4 * p) ∧
      (resizeAndGrayscaleTo1024Core img).data (4 * p + 2) =
        (resizeAndGrayscaleTo1024Core img).data (4 * p) ∧
      (resizeAndGrayscaleTo1024Core img).data (4 * p + 3) =
        paddedStage img (4 * p + 3) := by
  have hdata : (resizeAndGrayscaleTo1024Core img).data =
      grayLoop (paddedStage img) (targetSize * targetSize) := by
    simp only [resizeAndGrayscaleTo1024Core]
  rw [hdata]
  rw [grayLoop_eval, grayLoop_eval, grayLoop_eval, grayLoop_eval]
  rw [if_pos (⟨by omega, by omega⟩ : 4 * p / 4 < 1024 * 1024 ∧ 4 * p % 4 < 3),
    if_pos (⟨by omega, by omega⟩ :
      (4 * p + 1) / 4 < 1024 * 1024 ∧ (4 * p + 1) % 4 < 3),
    if_pos (⟨by omega, by omega⟩ :
      (4 * p + 2) / 4 < 1024 * 1024 ∧ (4 * p + 2) % 4 < 3),
    if_neg (show ¬((4 * p + 3) / 4 < 1024 * 1024 ∧ (4 * p + 3) % 4 < 3) by
      omega)]
  rw [show 4 * p / 4 = p by omega, show (4 * p + 1) / 4 = p by omega,
    show (4 * p + 2) / 4 = p by omega]
  exact ⟨grayValue_cast (paddedStage img) p (paddedStage_le img), rfl, rfl, rfl⟩

theorem c8_witness :
    ((resizeAndGrayscaleTo1024Core (RgbaImage.mk 2 2 (fun _ => 7))).data
          (4 * 0) : ℤ) =
        jsRound (luma
          (paddedStage (RgbaImage.mk 2 2 (fun _ => 7)) (4 * 0))
          (paddedStage (RgbaImage.mk 2 2 (fun _ => 7)) (4 * 0 + 1))
          (paddedStage (RgbaImage.mk 2 2 (fun _ => 7)) (4 * 0 + 2))) ∧
      (resizeAndGrayscaleTo1024Core (RgbaImage.mk 2 2 (fun _ => 7))).data
          (4 * 0 + 1) =
        (resizeAndGrayscaleTo1024Core (RgbaImage.mk 2 2 (fun _ => 7))).data
          (4 * 0) ∧
      (resizeAndGrayscaleTo1024Core (RgbaImage.mk 2 2 (fun _ => 7))).data
          (4 * 0 + 2) =
        (resizeAndGrayscaleTo1024Core (RgbaImage.mk 2 2 (fun _ => 7))).data
          (4 * 0) ∧
      (resizeAndGrayscaleTo1024Core (RgbaImage.mk 2 2 (fun _ => 7))).data
          (4 * 0 + 3) =
        paddedStage (RgbaImage.mk 2 2 (fun _ => 7)) (4 * 0 + 3) :=
  c8_grayscale_pixels (RgbaImage.mk 2 2 (fun _ => 7)) 0 (by decide)

/-! ## Claim C6 -/

/-- C6: whenever the vision call errors (including the firing of the
15-second abort), returns a non-2xx status, or returns content that the
four-stage JSON-extraction cascade cannot parse, `generateGroqVisionPrompt`
does not raise and returns exactly the fixed default triplet. -/
theorem c6_vision_defaults (outcome : VisionOutcome)
    (h : outcome = VisionOutcome.fetchError ∨
      (∃ st b, outcome = VisionOutcome.notOk st b) ∨
      (∃ c, outcome = VisionOutcome.ok c ∧ parseJsonFromContent c = none)) :
    generateGroqVisionPrompt outcome = visionDefaults := by
  rcases h with h | ⟨st, b, h⟩ | ⟨c, h, hparse⟩ <;> subst h
  · rfl
  · rfl
  · show (match parseJsonFromContent c with
      | none => visionDefaults
      | some parsed =>
        ⟨orDefault (jsGet parsed (String.toList "productName"))
            visionDefaultProductName,
          orDefault (jsGet parsed (String.toList "story")) visionDefaultStory,
          orDefault (jsGet parsed (String.toList "prompt"))
            visionDefaultPrompt⟩) = visionDefaults
    rw [hparse]

theorem c6_witness :
    generateGroqVisionPrompt
        (VisionOutcome.ok (String.toList "The model replied without JSON.")) =
      visionDefaults :=
  c6_vision_defaults _
    (Or.inr (Or.inr ⟨String.toList "The model replied without JSON.", rfl,
      by rfl⟩))

/-! ## Character-class lemmas for the JSON model -/

theorem ne_of_pred (P : Char → Bool) {c d : Char} (h : P c = true)
    (hd : P d = false) : c ≠ d := by
  intro heq
  rw [heq, hd] at h
  cases h

theorem isDigit_eq (c : Char) :
    c.isDigit = (decide ((48 : Nat) ≤ c.toNat) && decide (c.toNat ≤ 57)) := rfl

theorem proseChar_not_digit (c : Char) (h : proseChar c = true) :
    c.isDigit = false := by
  unfold proseChar at h
  simp only [Bool.or_eq_true, Bool.and_eq_true, decide_eq_true_eq] at h
  rcases h with (((((((⟨h1, h2⟩ | ⟨h1, h2⟩) | h) | h) | h) | h) | h) | h)
  · rw [isDigit_eq]
    simp only [Bool.and_eq_false_iff, decide_eq_false_iff_not, not_le]
    omega
  · rw [isDigit_eq]
    simp only [Bool.and_eq_false_iff, decide_eq_false_iff_not, not_le]
    omega
  all_goals subst h
  all_goals decide

theorem isJsonWs_cases (c : Char) (h : isJsonWs c = true) :
    c = ' ' ∨ c = '\t' ∨ c = '\n' ∨ c = '\r' := by
  unfold isJsonWs at h
  simp only [Bool.or_eq_true, decide_eq_true_eq] at h
  tauto

theorem isJsonWs_false_of_digit (c : Char) (h : c.isDigit = true) :
    isJsonWs c = false := by
  cases hws : isJsonWs c
  · rfl
  · rcases isJsonWs_cases c hws with rfl | rfl | rfl | rfl <;>
      exact absurd h (by decide)

theorem isJsonWs_false_of_trimWs_false (c : Char) (h : isTrimWs c = false) :
    isJsonWs c = false := by
  cases hws : isJsonWs c
  · rfl
  · unfold isTrimWs at h
    rw [hws] at h
    cases h

theorem goodHead_not_ws (c : Char) (h : goodHead c = true) :
    isJsonWs c = false := by
  unfold goodHead at h
  simp only [Bool.or_eq_true, decide_eq_true_eq] at h
  rcases h with (((((((h | h) | h) | h) | h) | h) | h) | hdig)
  case inr => exact isJsonWs_false_of_digit c hdig
  all_goals subst h
  all_goals decide

theorem goodHead_ne (c : Char) (h : goodHead c = true) (d : Char)
    (hd1 : goodHead d = false) : c ≠ d :=
  ne_of_pred goodHead h hd1

theorem plainChar_facts (c : Char) (h : plainChar c = true) :
    c ≠ quoteCh ∧ c ≠ backslashCh ∧ ¬(c.toNat < 32) := by
  unfold plainChar at h
  simp only [Bool.and_eq_true, decide_eq_true_eq, bne_iff_ne, ne_eq,
    decide_eq_true_eq] at h
  refine ⟨?_, ?_, by omega⟩
  · intro heq
    rw [heq] at h
    revert h
    decide
  · intro heq
    rw [heq] at h
    revert h
    decide

/-! ## Parser step lemmas -/

theorem parseValue_succ_cons (fuel : Nat) (c : Char) (A : List Char)
    (hws : isJsonWs c = false) :
    parseValue (Nat.succ fuel) (c :: A) =
      if c = braceOpenCh then parseObject fuel A
      else if c = bracketOpenCh then parseArray fuel A
      else if c = quoteCh then
        match parseStringBody A with
        | some (s, r) => some (Json.str s, r)
        | none => none
      else if c = 'n' then
        if A.take 3 = ['u', 'l', 'l'] then some (Json.null, A.drop 3) else none
      else if c = 't' then
        if A.take 3 = ['r', 'u', 'e'] then some (Json.bool true, A.drop 3)
        else none
      else if c = 'f' then
        if A.take 4 = ['a', 'l', 's', 'e'] then some (Json.bool false, A.drop 4)
        else none
      else if c = '-' || c.isDigit then parseNumber (c :: A)
      else none := by
  rw [parseValue, List.dropWhile_cons, hws]
  simp only [Bool.false_eq_true, if_false]

theorem parseObject_succ_cons (fuel : Nat) (c : Char) (A : List Char)
    (hws : isJsonWs c = false) :
    parseObject (Nat.succ fuel) (c :: A) =
      if c = braceCloseCh then some (Json.obj [], A)
      else
        match parseMembersLoop fuel (c :: A) with
        | some (ms, r) => some (Json.obj ms, r)
        | none => none := by
  rw [parseObject, List.dropWhile_cons, hws]
  simp only [Bool.false_eq_true, if_false]

theorem parseArray_succ_cons (fuel : Nat) (c : Char) (A : List Char)
    (hws : isJsonWs c = false) :
    parseArray (Nat.succ fuel) (c :: A) =
      if c = bracketCloseCh then some (Json.arr [], A)
      else
        match parseElementsLoop fuel (c :: A) with
        | some (xs, r) => some (Json.arr xs, r)
        | none => none := by
  rw [parseArray, List.dropWhile_cons, hws]
  simp only [Bool.false_eq_true, if_false]

theorem parseMembersLoop_succ_cons (fuel : Nat) (c : Char) (A : List Char)
    (hws : isJsonWs c = false) :
    parseMembersLoop (Nat.succ fuel) (c :: A) =
      if c = quoteCh then
        match parseStringBody A with
        | none => none
        | some (k, r1) =>
          match r1.dropWhile isJsonWs with
          | [] => none
          | c2 :: r2 =>
            if c2 = ':' then
              match parseValue fuel r2 with
              | none => none
              | some (v, r3) =>
                match r3.dropWhile isJsonWs with
                | [] => none
                | c3 :: r4 =>
                  if c3 = ',' then
                    match parseMembersLoop fuel r4 with
                    | none => none
                    | some (ms, r5) => some ((k, v) :: ms, r5)
                  else if c3 = braceCloseCh then some ([(k, v)], r4)
                  else none
            else none
      else none := by
  rw [parseMembersLoop, List.dropWhile_cons, hws]
  simp only [Bool.false_eq_true, if_false]

/-! ## String-body and number roundtrips -/

theorem parseStringBody_cons (c : Char) (X : List Char) :
    parseStringBody (c :: X) =
      if c = quoteCh then some ([], X)
      else if c = backslashCh then
        match X with
        | [] => none
        | e :: rest2 =>
          match escChar e, parseStringBody rest2 with
          | some d, some (s, r) => some (d :: s, r)
          | _, _ => none
      else if c.toNat < 32 then none
      else
        match parseStringBody X with
        | some (s, r) => some (c :: s, r)
        | none => none := by
  rw [parseStringBody.eq_def]

theorem parseStringBody_append (s rest : List Char)
    (h : s.all plainChar = true) :
    parseStringBody (s ++ quoteCh :: rest) = some (s, rest) := by
  induction s with
  | nil =>
    show parseStringBody (quoteCh :: rest) = some ([], rest)
    rw [parseStringBody_cons, if_pos rfl]
  | cons c t ih =>
    rw [List.all_cons, Bool.and_eq_true] at h
    obtain ⟨hne1, hne2, hge⟩ := plainChar_facts c h.1
    show parseStringBody (c :: (t ++ quoteCh :: rest)) = some (c :: t, rest)
    rw [parseStringBody_cons, if_neg hne1, if_neg hne2, if_neg hge, ih h.2]

theorem takeWhile_stop {p : Char → Bool} (xs ys : List Char)
    (hall : ∀ x ∈ xs, p x = true)
    (hstop : ∀ c, ys.head? = some c → p c = false) :
    List.takeWhile p (xs ++ ys) = xs := by
  rw [takeWhile_append_of_all xs ys hall]
  cases ys with
  | nil => simp
  | cons c t =>
    rw [List.takeWhile_cons, hstop c rfl]
    simp

theorem digitChar_isDigit (d : Nat) (h : d < 10) :
    (Nat.digitChar d).isDigit = true := by
  interval_cases d <;> decide

theorem digitChar_toNat (d : Nat) (h : d < 10) :
    (Nat.digitChar d).toNat - 48 = d := by
  interval_cases d <;> decide

theorem natDigits_all_digits (n : Nat) :
    ∀ c ∈ natDigits n, c.isDigit = true := by
  intro c hc
  unfold natDigits at hc
  split at hc
  · simp only [List.mem_singleton] at hc
    rw [hc]
    decide
  · rw [List.mem_map] at hc
    obtain ⟨d, hd, rfl⟩ := hc
    rw [List.mem_reverse] at hd
    exact digitChar_isDigit d (Nat.digits_lt_base (by norm_num) hd)

theorem natDigits_ne_nil (n : Nat) : natDigits n ≠ [] := by
  unfold natDigits
  split
  · simp
  · simp only [ne_eq, List.map_eq_nil_iff, List.reverse_eq_nil_iff]
    exact Nat.digits_ne_nil_iff_ne_zero.mpr (by omega)

theorem digitsToNat_aux (ds : List Nat) (h : ∀ d ∈ ds, d < 10) :
    digitsToNat ((ds.map Nat.digitChar).reverse) = Nat.ofDigits 10 ds := by
  induction ds with
  | nil => rfl
  | cons d tl ih =>
    have hd : d < 10 := h d (by simp)
    rw [List.map_cons, List.reverse_cons]
    unfold digitsToNat
    rw [List.foldl_append]
    have htl := ih fun x hx => h x (by simp [hx])
    unfold digitsToNat at htl
    rw [htl, Nat.ofDigits_cons]
    simp only [List.foldl_cons, List.foldl_nil]
    rw [digitChar_toNat d hd]
    push_cast
    ring

theorem digitsToNat_natDigits (n : Nat) : digitsToNat (natDigits n) = n := by
  unfold natDigits
  split
  · subst n
    rfl
  · rw [List.map_reverse,
      digitsToNat_aux _ (fun d hd => Nat.digits_lt_base (by norm_num) hd),
      Nat.ofDigits_digits]

theorem parseNumber_cons (c : Char) (A : List Char) (hc : c ≠ '-') :
    parseNumber (c :: A) =
      if ((c :: A).takeWhile Char.isDigit).isEmpty then none
      else some (Json.num (digitsToNat ((c :: A).takeWhile Char.isDigit)),
        (c :: A).drop ((c :: A).takeWhile Char.isDigit).length) := by
  rw [parseNumber.eq_def]
  split
  · rename_i heq
    exact absurd (List.head_eq_of_cons_eq heq.symm).symm hc
  · rfl

theorem parseNumber_render (n : Int) (rest : List Char)
    (hrest : ∀ c, rest.head? = some c → c.isDigit = false) :
    parseNumber (renderInt n ++ rest) = some (Json.num n, rest) := by
  by_cases hneg : n < 0
  · rw [show renderInt n = '-' :: natDigits n.natAbs by
      unfold renderInt; rw [if_pos hneg]]
    show parseNumber ('-' :: (natDigits n.natAbs ++ rest)) = some (Json.num n, rest)
    rw [parseNumber.eq_def]
    have htake : (natDigits n.natAbs ++ rest).takeWhile Char.isDigit =
        natDigits n.natAbs :=
      takeWhile_stop _ _ (natDigits_all_digits n.natAbs) hrest
    simp only []
    rw [htake]
    rw [if_neg (by simp [natDigits_ne_nil n.natAbs])]
    rw [digitsToNat_natDigits, List.drop_left]
    have heq : -((n.natAbs : Int)) = n := by omega
    rw [heq]
  · obtain ⟨d, t, hd⟩ := List.exists_cons_of_ne_nil (natDigits_ne_nil n.toNat)
    have hddig : d.isDigit = true := by
      apply natDigits_all_digits n.toNat
      rw [hd]
      simp
    have hrender : renderInt n = d :: t := by
      unfold renderInt
      rw [if_neg hneg, hd]
    rw [hrender]
    show parseNumber (d :: (t ++ rest)) = some (Json.num n, rest)
    rw [parseNumber_cons d (t ++ rest) (ne_of_pred Char.isDigit hddig (by decide))]
    have htake : ((d :: t) ++ rest).takeWhile Char.isDigit = d :: t := by
      apply takeWhile_stop _ _ ?_ hrest
      intro x hx
      apply natDigits_all_digits n.toNat
      rw [hd]
      exact hx
    rw [List.cons_append] at htake
    rw [htake]
    rw [if_neg (by simp)]
    have hdrop : (d :: (t ++ rest)).drop (d :: t).length = rest := by
      rw [show d :: (t ++ rest) = (d :: t) ++ rest by simp, List.drop_left]
    rw [hdrop]
    have hval : digitsToNat (d :: t) = n.toNat := by
      rw [← hd, digitsToNat_natDigits]
    rw [hval]
    have heq : ((n.toNat : Int)) = n := by omega
    rw [heq]

theorem renderInt_head_digit_or_neg (n : Int) :
    ∃ c t, renderInt n = c :: t ∧ (c = '-' ∨ c.isDigit = true) := by
  by_cases hneg : n < 0
  · exact ⟨'-', natDigits n.natAbs, by unfold renderInt; rw [if_pos hneg],
      Or.inl rfl⟩
  · obtain ⟨d, t, hd⟩ := List.exists_cons_of_ne_nil (natDigits_ne_nil n.toNat)
    refine ⟨d, t, by unfold renderInt; rw [if_neg hneg, hd], Or.inr ?_⟩
    apply natDigits_all_digits n.toNat
    rw [hd]
    simp

theorem renderV_head_good (v : Json) :
    ∃ c t, renderV v = c :: t ∧ goodHead c = true := by
  cases v with
  | null => exact ⟨'n', _, rfl, by decide⟩
  | bool b => cases b with
    | true => exact ⟨'t', _, rfl, by decide⟩
    | false => exact ⟨'f', _, rfl, by decide⟩
  | num n =>
    obtain ⟨c, t, hct, hc⟩ := renderInt_head_digit_or_neg n
    refine ⟨c, t, hct, ?_⟩
    unfold goodHead
    rcases hc with rfl | hdig
    · decide
    · rw [hdig]
      simp
  | str s => exact ⟨quoteCh, _, rfl, by decide⟩
  | arr xs => exact ⟨bracketOpenCh, _, rfl, by decide⟩
  | obj ms => exact ⟨braceOpenCh, _, rfl, by decide⟩

theorem renderM_head_quote (k : List Char) (v : Json)
    (tl : List (List Char × Json)) :
    ∃ t, renderM ((k, v) :: tl) = quoteCh :: t := by
  cases tl with
  | nil => exact ⟨_, rfl⟩
  | cons m ms => exact ⟨_, rfl⟩

theorem renderInt_length_pos (n : Int) : 0 < (renderInt n).length := by
  unfold renderInt
  split
  · simp
  · have := natDigits_ne_nil n.toNat
    cases h : natDigits n.toNat with
    | nil => exact absurd h this
    | cons c t => simp [h]

mutual

theorem sizeV_le_len : ∀ v : Json, sizeV v ≤ 2 * (renderV v).length
  | .null => by simp [sizeV, renderV]
  | .bool true => by simp [sizeV, renderV]
  | .bool false => by simp [sizeV, renderV]
  | .num n => by
    have := renderInt_length_pos n
    simp only [sizeV, renderV]
    omega
  | .str s => by
    simp only [sizeV, renderV, List.length_cons, List.length_append,
      List.length_singleton]
    omega
  | .arr xs => by
    have := sizeL_le_len xs
    simp only [sizeV, renderV, List.length_cons, List.length_append,
      List.length_singleton]
    omega
  | .obj ms => by
    have := sizeM_le_len ms
    simp only [sizeV, renderV, List.length_cons, List.length_append,
      List.length_singleton]
    omega

theorem sizeL_le_len : ∀ xs : List Json, sizeL xs ≤ 2 * (renderL xs).length + 2
  | [] => by simp [sizeL, renderL]
  | [x] => by
    have := sizeV_le_len x
    simp only [sizeL, renderL]
    omega
  | x :: y :: xs => by
    have h1 := sizeV_le_len x
    have h2 := sizeL_le_len (y :: xs)
    simp only [sizeL, renderL, List.length_append, List.length_cons] at h2 ⊢
    omega

theorem sizeM_le_len :
    ∀ ms : List (List Char × Json), sizeM ms ≤ 2 * (renderM ms).length + 2
  | [] => by simp [sizeM, renderM]
  | [(k, v)] => by
    have := sizeV_le_len v
    simp only [sizeM, renderM, List.length_cons, List.length_append]
    omega
  | (k, v) :: m :: ms => by
    have h1 := sizeV_le_len v
    have h2 := sizeM_le_len (m :: ms)
    simp only [sizeM, renderM, List.length_append, List.length_cons] at h2 ⊢
    omega

end

theorem parseElementsLoop_succ (fuel : Nat) (cs : List Char) :
    parseElementsLoop (Nat.succ fuel) cs =
      match parseValue fuel cs with
      | none => none
      | some (v, r1) =>
        match r1.dropWhile isJsonWs with
        | [] => none
        | c2 :: r2 =>
          if c2 = ',' then
            match parseElementsLoop fuel r2 with
            | none => none
            | some (xs, r3) => some (v :: xs, r3)
          else if c2 = bracketCloseCh then some ([v], r2)
          else none := rfl

theorem parse_render_fuel (fuel : Nat) :
    (∀ v rest, plainV v = true → sizeV v ≤ fuel →
      (∀ c, rest.head? = some c → c.isDigit = false) →
      parseValue fuel (renderV v ++ rest) = some (v, rest)) ∧
    (∀ ms rest, plainM ms = true → sizeM ms + 1 ≤ fuel →
      parseObject fuel (renderM ms ++ braceCloseCh :: rest) =
        some (Json.obj ms, rest)) ∧
    (∀ xs rest, plainL xs = true → sizeL xs + 1 ≤ fuel →
      parseArray fuel (renderL xs ++ bracketCloseCh :: rest) =
        some (Json.arr xs, rest)) ∧
    (∀ ms rest, ms ≠ [] → plainM ms = true → sizeM ms ≤ fuel →
      parseMembersLoop fuel (renderM ms ++ braceCloseCh :: rest) =
        some (ms, rest)) ∧
    (∀ xs rest, xs ≠ [] → plainL xs = true → sizeL xs ≤ fuel →
      parseElementsLoop fuel (renderL xs ++ bracketCloseCh :: rest) =
        some (xs, rest)) := by
  induction fuel with
  | zero =>
    refine ⟨?_, ?_, ?_, ?_, ?_⟩
    · intro v _ _ hsz _
      exfalso
      cases v <;> simp [sizeV] at hsz
    · intro ms _ _ hsz
      omega
    · intro xs _ _ hsz
      omega
    · intro ms rest hne _ hsz
      obtain ⟨⟨k, v⟩, tl, rfl⟩ := List.exists_cons_of_ne_nil hne
      simp [sizeM] at hsz
    · intro xs rest hne _ hsz
      obtain ⟨x, tl, rfl⟩ := List.exists_cons_of_ne_nil hne
      simp [sizeL] at hsz
  | succ fuel ih =>
    obtain ⟨ihV, ihO, ihA, ihM, ihE⟩ := ih
    have hvalue : ∀ v rest, plainV v = true → sizeV v ≤ Nat.succ fuel →
        (∀ c, rest.head? = some c → c.isDigit = false) →
        parseValue (Nat.succ fuel) (renderV v ++ rest) = some (v, rest) := by
      intro v rest hplain hsz hrest
      cases v with
      | null =>
        show parseValue (Nat.succ fuel) ('n' :: ('u' :: 'l' :: 'l' :: rest)) =
          some (Json.null, rest)
        rw [parseValue_succ_cons fuel 'n' _ (by decide), if_neg (by decide),
          if_neg (by decide), if_neg (by decide), if_pos rfl]
        simp
      | bool b =>
        cases b with
        | true =>
          show parseValue (Nat.succ fuel)
            ('t' :: ('r' :: 'u' :: 'e' :: rest)) = some (Json.bool true, rest)
          rw [parseValue_succ_cons fuel 't' _ (by decide), if_neg (by decide),
            if_neg (by decide), if_neg (by decide), if_neg (by decide),
            if_pos rfl]
          simp
        | false =>
          show parseValue (Nat.succ fuel)
              ('f' :: ('a' :: 'l' :: 's' :: 'e' :: rest)) =
            some (Json.bool false, rest)
          rw [parseValue_succ_cons fuel 'f' _ (by decide), if_neg (by decide),
            if_neg (by decide), if_neg (by decide), if_neg (by decide),
            if_neg (by decide), if_pos rfl]
          simp
      | num n =>
        obtain ⟨c, t, hct, hc⟩ := renderInt_head_digit_or_neg n
        have hgood : goodHead c = true := by
          unfold goodHead
          rcases hc with rfl | h
          · decide
          · rw [h]
            simp
        have hws := goodHead_not_ws c hgood
        have hinput : renderV (Json.num n) ++ rest = c :: (t ++ rest) := by
          show renderInt n ++ rest = c :: (t ++ rest)
          rw [hct, List.cons_append]
        rw [hinput, parseValue_succ_cons fuel c _ hws]
        have hnum : (c = '-' || c.isDigit) = true := by
          rcases hc with rfl | h
          · decide
          · rw [h]
            simp
        have hne1 : c ≠ braceOpenCh := by
          rcases hc with rfl | h
          · decide
          · exact ne_of_pred Char.isDigit h (by decide)
        have hne2 : c ≠ bracketOpenCh := by
          rcases hc with rfl | h
          · decide
          · exact ne_of_pred Char.isDigit h (by decide)
        have hne3 : c ≠ quoteCh := by
          rcases hc with rfl | h
          · decide
          · exact ne_of_pred Char.isDigit h (by decide)
        have hne4 : c ≠ 'n' := by
          rcases hc with rfl | h
          · decide
          · exact ne_of_pred Char.isDigit h (by decide)
        have hne5 : c ≠ 't' := by
          rcases hc with rfl | h
          · decide
          · exact ne_of_pred Char.isDigit h (by decide)
        have hne6 : c ≠ 'f' := by
          rcases hc with rfl | h
          · decide
          · exact ne_of_pred Char.isDigit h (by decide)
        rw [if_neg hne1, if_neg hne2, if_neg hne3, if_neg hne4, if_neg hne5,
          if_neg hne6, if_pos hnum, ← List.cons_append, ← hct]
        exact parseNumber_render n rest hrest
      | str s =>
        have hinput : renderV (Json.str s) ++ rest =
            quoteCh :: (s ++ quoteCh :: rest) := by
          show (quoteCh :: (s ++ [quoteCh])) ++ rest =
            quoteCh :: (s ++ quoteCh :: rest)
          simp
        rw [hinput, parseValue_succ_cons fuel quoteCh _ (by decide),
          if_neg (by decide), if_neg (by decide), if_pos rfl,
          parseStringBody_append s rest (by simpa [plainV] using hplain)]
      | arr xs =>
        have hinput : renderV (Json.arr xs) ++ rest =
            bracketOpenCh :: (renderL xs ++ bracketCloseCh :: rest) := by
          show (bracketOpenCh :: (renderL xs ++ [bracketCloseCh])) ++ rest = _
          simp
        rw [hinput, parseValue_succ_cons fuel bracketOpenCh _ (by decide),
          if_neg (by decide), if_pos rfl]
        apply ihA xs rest (by simpa [plainV] using hplain)
        simp only [sizeV] at hsz
        omega
      | obj ms =>
        have hinput : renderV (Json.obj ms) ++ rest =
            braceOpenCh :: (renderM ms ++ braceCloseCh :: rest) := by
          show (braceOpenCh :: (renderM ms ++ [braceCloseCh])) ++ rest = _
          simp
        rw [hinput, parseValue_succ_cons fuel braceOpenCh _ (by decide),
          if_pos rfl]
        apply ihO ms rest (by simpa [plainV] using hplain)
        simp only [sizeV] at hsz
        omega
    have hmembers : ∀ ms rest, ms ≠ [] → plainM ms = true →
        sizeM ms ≤ Nat.succ fuel →
        parseMembersLoop (Nat.succ fuel) (renderM ms ++ braceCloseCh :: rest) =
          some (ms, rest) := by
      intro ms rest hne hplain hsz
      obtain ⟨⟨k, v⟩, tl, rfl⟩ := List.exists_cons_of_ne_nil hne
      simp only [plainM, Bool.and_eq_true] at hplain
      obtain ⟨⟨hk, hv⟩, htl⟩ := hplain
      simp only [sizeM] at hsz
      cases tl with
      | nil =>
        have hinput : renderM [(k, v)] ++ braceCloseCh :: rest =
            quoteCh :: (k ++ quoteCh ::
              (':' :: (renderV v ++ braceCloseCh :: rest))) := by
          show (quoteCh :: (k ++ quoteCh :: ':' :: renderV v)) ++
            braceCloseCh :: rest = _
          simp
        rw [hinput, parseMembersLoop_succ_cons fuel quoteCh _ (by decide),
          if_pos rfl, parseStringBody_append k _ hk]
        show (match (':' :: (renderV v ++ braceCloseCh :: rest)).dropWhile
            isJsonWs with
          | [] => none
          | c2 :: r2 =>
            if c2 = ':' then
              match parseValue fuel r2 with
              | none => none
              | some (v2, r3) =>
                match r3.dropWhile isJsonWs with
                | [] => none
                | c3 :: r4 =>
                  if c3 = ',' then
                    match parseMembersLoop fuel r4 with
                    | none => none
                    | some (ms2, r5) => some ((k, v2) :: ms2, r5)
                  else if c3 = braceCloseCh then some ([(k, v2)], r4)
                  else none
            else none) = some ([(k, v)], rest)
        rw [List.dropWhile_cons, show isJsonWs ':' = false from by decide]
        simp only [Bool.false_eq_true, if_false]
        rw [ihV v (braceCloseCh :: rest) hv (by omega)
          (by intro c hcc; cases hcc; decide)]
        show (match (braceCloseCh :: rest).dropWhile isJsonWs with
          | [] => none
          | c3 :: r4 =>
            if c3 = ',' then
              match parseMembersLoop fuel r4 with
              | none => none
              | some (ms2, r5) => some ((k, v) :: ms2, r5)
            else if c3 = braceCloseCh then some ([(k, v)], r4)
            else none) = some ([(k, v)], rest)
        rw [List.dropWhile_cons, show isJsonWs braceCloseCh = false from by
          decide]
        simp only [Bool.false_eq_true, if_false]
        rw [if_neg (by decide)]
        simp
      | cons m2 tl2 =>
        have hinput : renderM ((k, v) :: m2 :: tl2) ++ braceCloseCh :: rest =
            quoteCh :: (k ++ quoteCh :: (':' :: (renderV v ++
              ',' :: (renderM (m2 :: tl2) ++ braceCloseCh :: rest)))) := by
          show ((quoteCh :: (k ++ quoteCh :: ':' :: renderV v)) ++
            ',' :: renderM (m2 :: tl2)) ++ braceCloseCh :: rest = _
          simp
        rw [hinput, parseMembersLoop_succ_cons fuel quoteCh _ (by decide),
          if_pos rfl, parseStringBody_append k _ hk]
        show (match (':' :: (renderV v ++ ',' ::
            (renderM (m2 :: tl2) ++ braceCloseCh :: rest))).dropWhile
            isJsonWs with
          | [] => none
          | c2 :: r2 =>
            if c2 = ':' then
              match parseValue fuel r2 with
              | none => none
              | some (v2, r3) =>
                match r3.dropWhile isJsonWs with
                | [] => none
                | c3 :: r4 =>
                  if c3 = ',' then
                    match parseMembersLoop fuel r4 with
                    | none => none
                    | some (ms2, r5) => some ((k, v2) :: ms2, r5)
                  else if c3 = braceCloseCh then some ([(k, v2)], r4)
                  else none
            else none) = some ((k, v) :: m2 :: tl2, rest)
        rw [List.dropWhile_cons, show isJsonWs ':' = false from by decide]
        simp only [Bool.false_eq_true, if_false]
        rw [ihV v (',' :: (renderM (m2 :: tl2) ++ braceCloseCh :: rest)) hv
          (by omega) (by intro c hcc; cases hcc; decide)]
        show (match (',' :: (renderM (m2 :: tl2) ++
            braceCloseCh :: rest)).dropWhile isJsonWs with
          | [] => none
          | c3 :: r4 =>
            if c3 = ',' then
              match parseMembersLoop fuel r4 with
              | none => none
              | some (ms2, r5) => some ((k, v) :: ms2, r5)
            else if c3 = braceCloseCh then some ([(k, v)], r4)
            else none) = some ((k, v) :: m2 :: tl2, rest)
        rw [List.dropWhile_cons, show isJsonWs ',' = false from by decide]
        simp only [Bool.false_eq_true, if_false]
        rw [ihM (m2 :: tl2) rest (by simp) htl (by
          have h0 : 0 ≤ sizeV v := Nat.zero_le _
          omega)]
        simp
    have helements : ∀ xs rest, xs ≠ [] → plainL xs = true →
        sizeL xs ≤ Nat.succ fuel →
        parseElementsLoop (Nat.succ fuel)
          (renderL xs ++ bracketCloseCh :: rest) = some (xs, rest) := by
      intro xs rest hne hplain hsz
      obtain ⟨x, tl, rfl⟩ := List.exists_cons_of_ne_nil hne
      simp only [plainL, Bool.and_eq_true] at hplain
      obtain ⟨hx, htl⟩ := hplain
      simp only [sizeL] at hsz
      cases tl with
      | nil =>
        have hinput : renderL [x] ++ bracketCloseCh :: rest =
            renderV x ++ bracketCloseCh :: rest := by
          show renderV x ++ bracketCloseCh :: rest = _
          rfl
        rw [hinput, parseElementsLoop_succ,
          ihV x (bracketCloseCh :: rest) hx (by omega)
            (by intro c hcc; cases hcc; decide)]
        show (match (bracketCloseCh :: rest).dropWhile isJsonWs with
          | [] => none
          | c2 :: r2 =>
            if c2 = ',' then
              match parseElementsLoop fuel r2 with
              | none => none
              | some (xs2, r3) => some (x :: xs2, r3)
            else if c2 = bracketCloseCh then some ([x], r2)
            else none) = some ([x], rest)
        rw [List.dropWhile_cons, show isJsonWs bracketCloseCh = false from by
          decide]
        simp only [Bool.false_eq_true, if_false]
        rw [if_neg (by decide)]
        simp
      | cons y tl2 =>
        have hinput : renderL (x :: y :: tl2) ++ bracketCloseCh :: rest =
            renderV x ++ ',' :: (renderL (y :: tl2) ++
              bracketCloseCh :: rest) := by
          show (renderV x ++ ',' :: renderL (y :: tl2)) ++
            bracketCloseCh :: rest = _
          simp
        rw [hinput, parseElementsLoop_succ,
          ihV x (',' :: (renderL (y :: tl2) ++ bracketCloseCh :: rest)) hx
            (by omega) (by intro c hcc; cases hcc; decide)]
        show (match (',' :: (renderL (y :: tl2) ++
            bracketCloseCh :: rest)).dropWhile isJsonWs with
          | [] => none
          | c2 :: r2 =>
            if c2 = ',' then
              match parseElementsLoop fuel r2 with
              | none => none
              | some (xs2, r3) => some (x :: xs2, r3)
            else if c2 = bracketCloseCh then some ([x], r2)
            else none) = some (x :: y :: tl2, rest)
        rw [List.dropWhile_cons, show isJsonWs ',' = false from by decide]
        simp only [Bool.false_eq_true, if_false]
        rw [ihE (y :: tl2) rest (by simp) htl (by
          have h0 : 0 ≤ sizeV x := Nat.zero_le _
          omega)]
        simp
    refine ⟨hvalue, ?_, ?_, hmembers, helements⟩
    · intro ms rest hplain hsz
      cases ms with
      | nil =>
        show parseObject (Nat.succ fuel) (braceCloseCh :: rest) =
          some (Json.obj [], rest)
        rw [parseObject_succ_cons fuel braceCloseCh rest (by decide),
          if_pos rfl]
      | cons m tl =>
        obtain ⟨k, v⟩ := m
        obtain ⟨T, hT⟩ := renderM_head_quote k v tl
        have hinput : renderM ((k, v) :: tl) ++ braceCloseCh :: rest =
            quoteCh :: (T ++ braceCloseCh :: rest) := by
          rw [hT, List.cons_append]
        rw [hinput, parseObject_succ_cons fuel quoteCh _ (by decide),
          if_neg (by decide), ← List.cons_append, ← hT,
          ihM ((k, v) :: tl) rest (by simp) hplain (by
            simp only [sizeM] at hsz ⊢
            omega)]
    · intro xs rest hplain hsz
      cases xs with
      | nil =>
        show parseArray (Nat.succ fuel) (bracketCloseCh :: rest) =
          some (Json.arr [], rest)
        rw [parseArray_succ_cons fuel bracketCloseCh rest (by decide),
          if_pos rfl]
      | cons x tl =>
        obtain ⟨c, t, hct, hgood⟩ := renderV_head_good x
        have hrl : ∃ T, renderL (x :: tl) = c :: T := by
          cases tl with
          | nil => exact ⟨t, by show renderV x = c :: t; exact hct⟩
          | cons y tl2 =>
            refine ⟨t ++ ',' :: renderL (y :: tl2), ?_⟩
            show renderV x ++ ',' :: renderL (y :: tl2) = _
            rw [hct, List.cons_append]
        obtain ⟨T, hT⟩ := hrl
        have hinput : renderL (x :: tl) ++ bracketCloseCh :: rest =
            c :: (T ++ bracketCloseCh :: rest) := by
          rw [hT, List.cons_append]
        rw [hinput, parseArray_succ_cons fuel c _ (goodHead_not_ws c hgood),
          if_neg (goodHead_ne c hgood bracketCloseCh (by decide)),
          ← List.cons_append, ← hT,
          ihE (x :: tl) rest (by simp) hplain (by
            simp only [sizeL] at hsz ⊢
            omega)]

theorem isTrimWs_of_isJsonWs (c : Char) (h : isJsonWs c = true) :
    isTrimWs c = true := by
  unfold isTrimWs
  rw [h]
  rfl

theorem dropWhile_head_false (p : Char → Bool) :
    ∀ (l : List Char) (c : Char) (t : List Char),
      l.dropWhile p = c :: t → p c = false := by
  intro l
  induction l with
  | nil => intro c t h; cases h
  | cons a l ih =>
    intro c t h
    rw [List.dropWhile_cons] at h
    by_cases ha : p a = true
    · rw [if_pos ha] at h
      exact ih c t h
    · rw [if_neg ha] at h
      obtain ⟨rfl, _⟩ := List.cons.inj h
      exact Bool.eq_false_iff.mpr ha

theorem dropWhile_idem (p : Char → Bool) (l : List Char) :
    (l.dropWhile p).dropWhile p = l.dropWhile p := by
  cases hd : l.dropWhile p with
  | nil => rfl
  | cons c t =>
    rw [List.dropWhile_cons, dropWhile_head_false p l c t hd]
    simp

theorem dropWhile_cons_of_false {p : Char → Bool} {c : Char} (t : List Char)
    (h : p c = false) : (c :: t).dropWhile p = c :: t := by
  rw [List.dropWhile_cons, h]
  simp

theorem dropWhile_append_of_head {p : Char → Bool} (l1 : List Char)
    {c : Char} (l2 : List Char) (h : p c = false) :
    (l1 ++ c :: l2).dropWhile p = l1.dropWhile p ++ c :: l2 := by
  rw [List.dropWhile_append]
  by_cases he : (l1.dropWhile p).isEmpty = true
  · rw [if_pos he, dropWhile_cons_of_false l2 h]
    rw [List.isEmpty_iff] at he
    rw [he, List.nil_append]
  · rw [if_neg he]

theorem jsTrimList_embed (p s mid : List Char) :
    jsTrimList (p ++ (braceOpenCh :: (mid ++ [braceCloseCh])) ++ s) =
      trimLeft p ++ (braceOpenCh :: (mid ++ [braceCloseCh])) ++ trimRight s := by
  unfold jsTrimList trimLeft trimRight
  have h1 : (p ++ (braceOpenCh :: (mid ++ [braceCloseCh])) ++ s).dropWhile
      isTrimWs = p.dropWhile isTrimWs ++
        (braceOpenCh :: ((mid ++ [braceCloseCh]) ++ s)) := by
    rw [List.append_assoc, List.cons_append,
      dropWhile_append_of_head p _ (by decide)]
  rw [h1]
  have h2 : (p.dropWhile isTrimWs ++
      (braceOpenCh :: ((mid ++ [braceCloseCh]) ++ s))).reverse =
      s.reverse ++ (braceCloseCh ::
        (mid.reverse ++ (braceOpenCh :: (p.dropWhile isTrimWs).reverse))) := by
    simp [List.reverse_append]
  rw [h2, dropWhile_append_of_head s.reverse _ (by decide)]
  simp [List.reverse_append]

theorem jsTrimList_cons_eq_self {c : Char} (t : List Char) {d : Char}
    (h1 : isTrimWs c = false) (h2 : (c :: t).getLast? = some d)
    (h3 : isTrimWs d = false) : jsTrimList (c :: t) = c :: t := by
  unfold jsTrimList
  rw [dropWhile_cons_of_false t h1]
  obtain ⟨e, r, hrev⟩ :
      ∃ e r, (c :: t).reverse = e :: r := by
    cases hr : (c :: t).reverse with
    | nil =>
      have := congrArg List.length hr
      simp at this
    | cons e r => exact ⟨e, r, rfl⟩
  have hd : e = d := by
    have := List.head?_reverse (c :: t)
    rw [hrev, h2] at this
    exact (Option.some.inj this)
  subst hd
  rw [hrev, dropWhile_cons_of_false r h3, ← hrev, List.reverse_reverse]

theorem charIndex_cons_self (c : Char) (t : List Char) :
    charIndex c (c :: t) = some 0 := by
  unfold charIndex
  rw [if_pos rfl]

theorem charIndex_append_of_not_mem (c : Char) (l1 l2 : List Char)
    (h : c ∉ l1) :
    charIndex c (l1 ++ l2) =
      (charIndex c l2).map (fun i => i + l1.length) := by
  induction l1 with
  | nil =>
    simp only [List.nil_append, List.length_nil]
    cases charIndex c l2 <;> rfl
  | cons a l1 ih =>
    have ha : a ≠ c := by
      intro heq
      subst heq
      exact h (List.mem_cons_self a l1)
    have hnm : c ∉ l1 := fun hm => h (List.mem_cons_of_mem a hm)
    rw [List.cons_append, show charIndex c (a :: (l1 ++ l2)) =
      if a = c then some 0
      else (charIndex c (l1 ++ l2)).map (fun i => i + 1) from rfl,
      if_neg ha, ih hnm]
    cases charIndex c l2 with
    | none => rfl
    | some k =>
      show some (k + l1.length + 1) = some (k + (a :: l1).length)
      have hlen : (a :: l1).length = l1.length + 1 := rfl
      rw [hlen]
      exact congrArg some (by omega)

theorem extractBetween_embed (tp mid ts : List Char)
    (h1 : braceOpenCh ∉ tp) (h2 : braceCloseCh ∉ ts) :
    extractBetween (tp ++ (braceOpenCh :: (mid ++ [braceCloseCh])) ++ ts)
        braceOpenCh braceCloseCh =
      some (braceOpenCh :: (mid ++ [braceCloseCh])) := by
  unfold extractBetween lastCharIndex
  have hfst : charIndex braceOpenCh
      (tp ++ (braceOpenCh :: (mid ++ [braceCloseCh])) ++ ts) =
        some tp.length := by
    rw [List.append_assoc, charIndex_append_of_not_mem _ _ _ h1,
      List.cons_append, charIndex_cons_self]
    simp
  have hrev : (tp ++ (braceOpenCh :: (mid ++ [braceCloseCh])) ++ ts).reverse =
      ts.reverse ++ (braceCloseCh ::
        (mid.reverse ++ (braceOpenCh :: tp.reverse))) := by
    simp [List.reverse_append]
  have hlst : charIndex braceCloseCh
      (tp ++ (braceOpenCh :: (mid ++ [braceCloseCh])) ++ ts).reverse =
        some ts.length := by
    rw [hrev, charIndex_append_of_not_mem _ _ _
      (fun hm => h2 (List.mem_reverse.mp hm)), charIndex_cons_self]
    simp
  rw [hfst, hlst]
  show (if tp.length <
      (tp ++ (braceOpenCh :: (mid ++ [braceCloseCh])) ++ ts).length - 1 -
        ts.length then
    some (((tp ++ (braceOpenCh :: (mid ++ [braceCloseCh])) ++ ts).take
      ((tp ++ (braceOpenCh :: (mid ++ [braceCloseCh])) ++ ts).length - 1 -
        ts.length + 1)).drop tp.length)
    else none) = some (braceOpenCh :: (mid ++ [braceCloseCh]))
  have hlen : (tp ++ (braceOpenCh :: (mid ++ [braceCloseCh])) ++ ts).length =
      tp.length + mid.length + 2 + ts.length := by
    simp
    omega
  rw [hlen]
  have hidx : tp.length + mid.length + 2 + ts.length - 1 - ts.length =
      tp.length + mid.length + 1 := by omega
  rw [hidx, if_pos (by omega)]
  have hsplit : tp ++ (braceOpenCh :: (mid ++ [braceCloseCh])) ++ ts =
      (tp ++ (braceOpenCh :: (mid ++ [braceCloseCh]))) ++ ts := rfl
  have htake : (tp ++ (braceOpenCh :: (mid ++ [braceCloseCh])) ++ ts).take
      (tp.length + mid.length + 1 + 1) =
        tp ++ (braceOpenCh :: (mid ++ [braceCloseCh])) := by
    rw [hsplit]
    have hl : tp.length + mid.length + 1 + 1 =
        (tp ++ (braceOpenCh :: (mid ++ [braceCloseCh]))).length := by
      simp
      omega
    rw [hl, List.take_left]
  rw [htake]
  have hdrop : (tp ++ (braceOpenCh :: (mid ++ [braceCloseCh]))).drop
      tp.length = braceOpenCh :: (mid ++ [braceCloseCh]) := List.drop_left _ _
  rw [hdrop]

theorem parseJson_render (v : Json) (hp : plainV v = true) :
    parseJson (renderV v) = some v := by
  have hfuel : sizeV v ≤ 2 * (renderV v).length + 2 :=
    le_trans (sizeV_le_len v) (by omega)
  have hpv := (parse_render_fuel (2 * (renderV v).length + 2)).1 v [] hp hfuel
    (by intro c hc; cases hc)
  rw [List.append_nil] at hpv
  unfold parseJson
  rw [hpv]
  rfl

theorem parseJson_render_trailing (v : Json) (ts : List Char)
    (hp : plainV v = true)
    (hd : ∀ c, ts.head? = some c → c.isDigit = false)
    (hne : ts.dropWhile isJsonWs ≠ []) :
    parseJson (renderV v ++ ts) = none := by
  have hlen : (renderV v).length ≤ (renderV v ++ ts).length := by simp
  have hfuel : sizeV v ≤ 2 * (renderV v ++ ts).length + 2 := by
    have h1 := sizeV_le_len v
    omega
  have hpv := (parse_render_fuel (2 * (renderV v ++ ts).length + 2)).1 v ts hp
    hfuel hd
  unfold parseJson
  rw [hpv]
  show (if (ts.dropWhile isJsonWs).isEmpty then some v else none) = none
  rw [if_neg (fun hx => hne (List.isEmpty_iff.mp hx))]

theorem parseValue_none_of_bad_head (fuel : Nat) (c : Char) (cs : List Char)
    (hws : isJsonWs c = false) (hbad : goodHead c = false) :
    parseValue fuel (c :: cs) = none := by
  unfold goodHead at hbad
  simp only [Bool.or_eq_false_iff, decide_eq_false_iff_not] at hbad
  obtain ⟨⟨⟨⟨⟨⟨⟨h1, h2⟩, h3⟩, h4⟩, h5⟩, h6⟩, h7⟩, h8⟩ := hbad
  cases fuel with
  | zero => rfl
  | succ f =>
    rw [parseValue_succ_cons f c cs hws, if_neg h1, if_neg h2, if_neg h3,
      if_neg h4, if_neg h5, if_neg h6]
    have hcond : (decide (c = '-') || c.isDigit) = false := by
      rw [h8, decide_eq_false h7]
      rfl
    rw [hcond]
    simp

theorem dropWhile_ne_nil_of_mem {l : List Char} (c : Char) (hc : c ∈ l)
    (hws : isJsonWs c = false) : l.dropWhile isJsonWs ≠ [] := by
  intro hnil
  have hall := List.dropWhile_eq_nil_iff.mp hnil
  rw [hall c hc] at hws
  cases hws

theorem parseJson_prose_head (h : Char) (tp j ts : List Char)
    (htw : isTrimWs h = false) (hpr : proseChar h = true)
    (hmem : braceOpenCh ∈ j) :
    parseJson ((h :: tp) ++ j ++ ts) = none := by
  have hsh : (h :: tp) ++ j ++ ts = h :: (tp ++ j ++ ts) := by simp
  rw [hsh]
  have hmemR : braceOpenCh ∈ tp ++ j ++ ts := by
    rw [List.append_assoc]
    exact List.mem_append.mpr (Or.inr (List.mem_append.mpr (Or.inl hmem)))
  have hmem_drop : ∀ (k : Nat) (kw : List Char),
      (tp ++ j ++ ts).take k = kw → braceOpenCh ∉ kw →
      braceOpenCh ∈ (tp ++ j ++ ts).drop k := by
    intro k kw htk hnm
    have hm := hmemR
    rw [← List.take_append_drop k (tp ++ j ++ ts)] at hm
    rcases List.mem_append.mp hm with hin | hin
    · rw [htk] at hin
      exact absurd hin hnm
    · exact hin
  unfold parseJson
  rw [show 2 * (h :: (tp ++ j ++ ts)).length + 2 =
    Nat.succ (2 * (h :: (tp ++ j ++ ts)).length + 1) from rfl,
    parseValue_succ_cons (2 * (h :: (tp ++ j ++ ts)).length + 1) h
      (tp ++ j ++ ts) (isJsonWs_false_of_trimWs_false h htw),
    if_neg (ne_of_pred proseChar hpr (by decide) :
      h ≠ braceOpenCh),
    if_neg (ne_of_pred proseChar hpr (by decide) :
      h ≠ bracketOpenCh),
    if_neg (ne_of_pred proseChar hpr (by decide) : h ≠ quoteCh)]
  by_cases hn : h = 'n'
  · rw [if_pos hn]
    by_cases htk : (tp ++ j ++ ts).take 3 = ['u', 'l', 'l']
    · rw [if_pos htk]
      have hdw := dropWhile_ne_nil_of_mem braceOpenCh
        (hmem_drop 3 _ htk (by decide)) (by decide)
      show (if (((tp ++ j ++ ts).drop 3).dropWhile isJsonWs).isEmpty then
        some Json.null else none) = none
      rw [if_neg (fun hx => hdw (List.isEmpty_iff.mp hx))]
    · rw [if_neg htk]
  · rw [if_neg hn]
    by_cases ht : h = 't'
    · rw [if_pos ht]
      by_cases htk : (tp ++ j ++ ts).take 3 = ['r', 'u', 'e']
      · rw [if_pos htk]
        have hdw := dropWhile_ne_nil_of_mem braceOpenCh
          (hmem_drop 3 _ htk (by decide)) (by decide)
        show (if (((tp ++ j ++ ts).drop 3).dropWhile isJsonWs).isEmpty then
          some (Json.bool true) else none) = none
        rw [if_neg (fun hx => hdw (List.isEmpty_iff.mp hx))]
      · rw [if_neg htk]
    · rw [if_neg ht]
      by_cases hf : h = 'f'
      · rw [if_pos hf]
        by_cases htk : (tp ++ j ++ ts).take 4 = ['a', 'l', 's', 'e']
        · rw [if_pos htk]
          have hdw := dropWhile_ne_nil_of_mem braceOpenCh
            (hmem_drop 4 _ htk (by decide)) (by decide)
          show (if (((tp ++ j ++ ts).drop 4).dropWhile isJsonWs).isEmpty then
            some (Json.bool false) else none) = none
          rw [if_neg (fun hx => hdw (List.isEmpty_iff.mp hx))]
        · rw [if_neg htk]
      · rw [if_neg hf]
        have hcond : (decide (h = '-') || h.isDigit) = false := by
          rw [proseChar_not_digit h hpr,
            decide_eq_false (ne_of_pred proseChar hpr (by decide) : h ≠ '-')]
          rfl
        rw [hcond]
        simp

theorem dropWhile_cons_of_true {p : Char → Bool} {c : Char} (t : List Char)
    (h : p c = true) : (c :: t).dropWhile p = t.dropWhile p := by
  rw [List.dropWhile_cons, h]
  simp

theorem take_three_ne (c : Char) (t : List Char) (h : c ≠ backtickCh) :
    (c :: t).take 3 ≠ [backtickCh, backtickCh, backtickCh] := by
  intro heq
  rw [List.take_succ_cons] at heq
  exact h (List.cons.inj heq).1

theorem stripLeadingFence_no (cs : List Char)
    (h : cs.take 3 ≠ [backtickCh, backtickCh, backtickCh]) :
    stripLeadingFence cs = cs := by
  unfold stripLeadingFence
  rw [if_neg h]

theorem stripTrailingFence_no (cs : List Char)
    (h : (cs.reverse.dropWhile isTrimWs).take 3 ≠
      [backtickCh, backtickCh, backtickCh]) :
    stripTrailingFence cs = cs := by
  unfold stripTrailingFence
  rw [if_neg h]

theorem fence_strip (tag mid : List Char)
    (htag : ∀ c ∈ tag, isTagChar c = true) :
    stripTrailingFence (stripLeadingFence
      (fenceWrap tag (braceOpenCh :: (mid ++ [braceCloseCh])))) =
      braceOpenCh :: (mid ++ [braceCloseCh]) := by
  have hstep1 : stripLeadingFence
      (fenceWrap tag (braceOpenCh :: (mid ++ [braceCloseCh]))) =
      braceOpenCh :: (mid ++ [braceCloseCh]) ++
        '\n' :: [backtickCh, backtickCh, backtickCh] := by
    unfold fenceWrap stripLeadingFence
    rw [List.append_assoc]
    have ht3 : List.take 3 ([backtickCh, backtickCh, backtickCh] ++
        (tag ++ '\n' :: (braceOpenCh :: (mid ++ [braceCloseCh]) ++
          ['\n', backtickCh, backtickCh, backtickCh]))) =
        [backtickCh, backtickCh, backtickCh] := by
      rw [show (3 : Nat) =
        ([backtickCh, backtickCh, backtickCh] : List Char).length from rfl]
      exact List.take_left _ _
    have hd3 : List.drop 3 ([backtickCh, backtickCh, backtickCh] ++
        (tag ++ '\n' :: (braceOpenCh :: (mid ++ [braceCloseCh]) ++
          ['\n', backtickCh, backtickCh, backtickCh]))) =
        tag ++ '\n' :: (braceOpenCh :: (mid ++ [braceCloseCh]) ++
          ['\n', backtickCh, backtickCh, backtickCh]) := by
      rw [show (3 : Nat) =
        ([backtickCh, backtickCh, backtickCh] : List Char).length from rfl]
      exact List.drop_left _ _
    rw [if_pos ht3, hd3,
      dropWhile_append_of_head tag _ (by decide),
      List.dropWhile_eq_nil_iff.mpr htag, List.nil_append,
      dropWhile_cons_of_true _ (by decide), List.cons_append,
      dropWhile_cons_of_false _ (by decide)]
  rw [hstep1]
  unfold stripTrailingFence
  have hrev : (braceOpenCh :: (mid ++ [braceCloseCh]) ++
      '\n' :: [backtickCh, backtickCh, backtickCh]).reverse =
      backtickCh :: backtickCh :: backtickCh :: '\n' ::
        (braceCloseCh :: (mid.reverse ++ [braceOpenCh])) := by
    simp
  rw [hrev, dropWhile_cons_of_false _ (by decide)]
  rw [if_pos (show List.take 3 (backtickCh :: backtickCh :: backtickCh ::
    '\n' :: (braceCloseCh :: (mid.reverse ++ [braceOpenCh]))) =
    [backtickCh, backtickCh, backtickCh] from rfl)]
  show ((('\n' :: (braceCloseCh :: (mid.reverse ++
    [braceOpenCh]))).dropWhile isTrimWs).reverse) = _
  rw [dropWhile_cons_of_true _ (by decide),
    dropWhile_cons_of_false _ (by decide)]
  have hjrev : braceCloseCh :: (mid.reverse ++ [braceOpenCh]) =
      (braceOpenCh :: (mid ++ [braceCloseCh])).reverse := by
    simp
  rw [hjrev, List.reverse_reverse]

theorem getLast_render_obj (ms : List (List Char × Json)) :
    (braceOpenCh :: (renderM ms ++ [braceCloseCh])).getLast? =
      some braceCloseCh := by
  rw [show braceOpenCh :: (renderM ms ++ [braceCloseCh]) =
    (braceOpenCh :: renderM ms) ++ [braceCloseCh] from by simp]
  exact List.getLast?_concat _

theorem jsTrim_render_obj (ms : List (List Char × Json)) :
    jsTrimList (braceOpenCh :: (renderM ms ++ [braceCloseCh])) =
      braceOpenCh :: (renderM ms ++ [braceCloseCh]) :=
  jsTrimList_cons_eq_self _ (by decide) (getLast_render_obj ms) (by decide)

theorem cascade_bare (ms : List (List Char × Json))
    (hp : plainV (Json.obj ms) = true) :
    parseJsonFromContent (renderV (Json.obj ms)) = some (Json.obj ms) := by
  have hj : renderV (Json.obj ms) =
      braceOpenCh :: (renderM ms ++ [braceCloseCh]) := rfl
  have hpj : parseJson (braceOpenCh :: (renderM ms ++ [braceCloseCh])) =
      some (Json.obj ms) := by
    rw [← hj]
    exact parseJson_render _ hp
  rw [hj]
  unfold parseJsonFromContent
  rw [jsTrim_render_obj ms, hpj]

theorem cascade_fence (ms : List (List Char × Json)) (tag : List Char)
    (hp : plainV (Json.obj ms) = true)
    (htag : ∀ c ∈ tag, isTagChar c = true) :
    parseJsonFromContent
      (fenceWrap tag (renderV (Json.obj ms))) = some (Json.obj ms) := by
  have hj : renderV (Json.obj ms) =
      braceOpenCh :: (renderM ms ++ [braceCloseCh]) := rfl
  have hpj : parseJson (braceOpenCh :: (renderM ms ++ [braceCloseCh])) =
      some (Json.obj ms) := by
    rw [← hj]
    exact parseJson_render _ hp
  rw [hj]
  have hcons : fenceWrap tag (braceOpenCh :: (renderM ms ++ [braceCloseCh])) =
      backtickCh :: ([backtickCh, backtickCh] ++ tag ++ '\n' ::
        (braceOpenCh :: (renderM ms ++ [braceCloseCh]) ++
          '\n' :: [backtickCh, backtickCh, backtickCh])) := by
    unfold fenceWrap
    simp
  have hlastF : (fenceWrap tag
      (braceOpenCh :: (renderM ms ++ [braceCloseCh]))).getLast? =
      some backtickCh := by
    rw [show fenceWrap tag (braceOpenCh :: (renderM ms ++ [braceCloseCh])) =
      ([backtickCh, backtickCh, backtickCh] ++ tag ++ '\n' ::
        (braceOpenCh :: (renderM ms ++ [braceCloseCh]) ++
          ['\n', backtickCh, backtickCh])) ++ [backtickCh] from by
        unfold fenceWrap
        simp]
    exact List.getLast?_concat _
  have hglF : (backtickCh :: ([backtickCh, backtickCh] ++ tag ++ '\n' ::
      (braceOpenCh :: (renderM ms ++ [braceCloseCh]) ++
        '\n' :: [backtickCh, backtickCh, backtickCh]))).getLast? =
      some backtickCh := by
    rw [← hcons]
    exact hlastF
  have hTF : jsTrimList (fenceWrap tag
      (braceOpenCh :: (renderM ms ++ [braceCloseCh]))) =
      fenceWrap tag (braceOpenCh :: (renderM ms ++ [braceCloseCh])) := by
    rw [hcons]
    exact jsTrimList_cons_eq_self _ (by decide) hglF (by decide)
  have hS1F : parseJson (fenceWrap tag
      (braceOpenCh :: (renderM ms ++ [braceCloseCh]))) = none := by
    rw [hcons]
    unfold parseJson
    rw [parseValue_none_of_bad_head _ _ _ (by decide) (by decide)]
  unfold parseJsonFromContent
  rw [hTF, hS1F, fence_strip tag (renderM ms) htag,
    jsTrim_render_obj ms, hpj]

theorem trimLeft_trimLeft (p : List Char) : trimLeft (trimLeft p) = trimLeft p := by
  unfold trimLeft
  exact dropWhile_idem _ _

theorem trimRight_trimRight (s : List Char) :
    trimRight (trimRight s) = trimRight s := by
  unfold trimRight
  rw [List.reverse_reverse, dropWhile_idem]

theorem jsTrim_embed_idem (tp ts mid : List Char) (h1 : trimLeft tp = tp)
    (h2 : trimRight ts = ts) :
    jsTrimList (tp ++ (braceOpenCh :: (mid ++ [braceCloseCh])) ++ ts) =
      tp ++ (braceOpenCh :: (mid ++ [braceCloseCh])) ++ ts := by
  rw [jsTrimList_embed, h1, h2]

theorem stripTrail_noop_of_head (cs : List Char) (c : Char) (t : List Char)
    (hrev : cs.reverse = c :: t) (htw : isTrimWs c = false)
    (hbt : c ≠ backtickCh) : stripTrailingFence cs = cs := by
  apply stripTrailingFence_no
  rw [hrev, dropWhile_cons_of_false t htw]
  exact take_three_ne c t hbt

theorem cascade_prose (ms : List (List Char × Json)) (p s : List Char)
    (hp : plainV (Json.obj ms) = true)
    (hps : ∀ c ∈ p, proseChar c = true)
    (hss : ∀ c ∈ s, proseChar c = true) :
    parseJsonFromContent (p ++ renderV (Json.obj ms) ++ s) =
      some (Json.obj ms) := by
  have hj : renderV (Json.obj ms) =
      braceOpenCh :: (renderM ms ++ [braceCloseCh]) := rfl
  have hpj : parseJson (braceOpenCh :: (renderM ms ++ [braceCloseCh])) =
      some (Json.obj ms) := by
    rw [← hj]
    exact parseJson_render _ hp
  rw [hj]
  have htp_sub : ∀ c ∈ trimLeft p, c ∈ p := by
    intro c hc
    exact List.Sublist.subset (List.dropWhile_sublist _) hc
  have hts_sub : ∀ c ∈ trimRight s, c ∈ s := by
    intro c hc
    unfold trimRight at hc
    rw [List.mem_reverse] at hc
    have h2 : c ∈ s.reverse :=
      List.Sublist.subset (List.dropWhile_sublist _) hc
    exact List.mem_reverse.mp h2
  have hT := jsTrimList_embed p s (renderM ms)
  have hbo_notin_tp : braceOpenCh ∉ trimLeft p := by
    intro hm
    exact absurd (hps _ (htp_sub _ hm)) (by decide)
  have hbc_notin_ts : braceCloseCh ∉ trimRight s := by
    intro hm
    exact absurd (hss _ (hts_sub _ hm)) (by decide)
  have hext := extractBetween_embed (trimLeft p) (renderM ms) (trimRight s)
    hbo_notin_tp hbc_notin_ts
  have hd_ts : ∀ c, (trimRight s).head? = some c → c.isDigit = false := by
    intro c hc
    have hcm : c ∈ trimRight s := by
      cases hts2 : trimRight s with
      | nil => rw [hts2] at hc; cases hc
      | cons a t =>
        rw [hts2] at hc
        obtain rfl : a = c := Option.some.inj hc
        exact List.mem_cons_self _ _
    exact proseChar_not_digit c (hss c (hts_sub c hcm))
  cases hDS : s.reverse.dropWhile isTrimWs with
  | nil =>
    have hts0 : trimRight s = [] := by
      unfold trimRight
      rw [hDS]
      rfl
    cases htp : trimLeft p with
    | nil =>
      rw [htp, hts0, List.nil_append, List.append_nil] at hT
      unfold parseJsonFromContent
      rw [hT, hpj]
    | cons cP tP =>
      have hcPtw : isTrimWs cP = false :=
        dropWhile_head_false isTrimWs p cP tP htp
      have hcP_mem : cP ∈ p :=
        htp_sub cP (by rw [htp]; exact List.mem_cons_self _ _)
      have hcP_pr : proseChar cP = true := hps cP hcP_mem
      rw [htp, hts0, List.append_nil] at hT
      have hS1 : parseJson ((cP :: tP) ++
          (braceOpenCh :: (renderM ms ++ [braceCloseCh]))) = none := by
        have hx := parseJson_prose_head cP tP
          (braceOpenCh :: (renderM ms ++ [braceCloseCh])) [] hcPtw hcP_pr
          (List.mem_cons_self _ _)
        rwa [List.append_nil] at hx
      have hSL : stripLeadingFence ((cP :: tP) ++
          (braceOpenCh :: (renderM ms ++ [braceCloseCh]))) =
          (cP :: tP) ++ (braceOpenCh :: (renderM ms ++ [braceCloseCh])) := by
        apply stripLeadingFence_no
        rw [List.cons_append]
        exact take_three_ne cP _ (ne_of_pred proseChar hcP_pr (by decide))
      have hrev : ((cP :: tP) ++
          (braceOpenCh :: (renderM ms ++ [braceCloseCh]))).reverse =
          braceCloseCh :: ((renderM ms).reverse ++
            (braceOpenCh :: (tP.reverse ++ [cP]))) := by
        simp
      have hST := stripTrail_noop_of_head _ _ _ hrev (by decide) (by decide)
      have hB2 : jsTrimList ((cP :: tP) ++
          (braceOpenCh :: (renderM ms ++ [braceCloseCh]))) =
          (cP :: tP) ++ (braceOpenCh :: (renderM ms ++ [braceCloseCh])) := by
        have hx := jsTrim_embed_idem (cP :: tP) [] (renderM ms)
          (dropWhile_cons_of_false tP hcPtw) rfl
        rwa [List.append_nil] at hx
      have hext2 := hext
      rw [htp, hts0, List.append_nil] at hext2
      unfold parseJsonFromContent
      rw [hT, hSL, hST, hB2, hS1, hext2]
      show (match parseJson (braceOpenCh :: (renderM ms ++ [braceCloseCh]))
          with
        | some v => some v
        | none => parseArrayStage ((cP :: tP) ++
            (braceOpenCh :: (renderM ms ++ [braceCloseCh])))) =
        some (Json.obj ms)
      rw [hpj]
  | cons cS dS =>
    have hcStw : isTrimWs cS = false :=
      dropWhile_head_false isTrimWs s.reverse cS dS hDS
    have hts_eq : trimRight s = dS.reverse ++ [cS] := by
      unfold trimRight
      rw [hDS]
      simp
    have hcS_mem_ts : cS ∈ trimRight s := by
      rw [hts_eq]
      exact List.mem_append.mpr (Or.inr (List.mem_cons_self _ _))
    have hcS_pr : proseChar cS = true := hss cS (hts_sub cS hcS_mem_ts)
    have hne_ts : (trimRight s).dropWhile isJsonWs ≠ [] :=
      dropWhile_ne_nil_of_mem cS hcS_mem_ts
        (isJsonWs_false_of_trimWs_false cS hcStw)
    have htsidem : trimRight (trimRight s) = trimRight s :=
      trimRight_trimRight s
    cases htp : trimLeft p with
    | nil =>
      rw [htp, List.nil_append] at hT
      have hS1 : parseJson ((braceOpenCh ::
          (renderM ms ++ [braceCloseCh])) ++ trimRight s) = none := by
        have hx := parseJson_render_trailing (Json.obj ms) (trimRight s) hp
          hd_ts hne_ts
        rwa [hj] at hx
      have hSL : stripLeadingFence ((braceOpenCh ::
          (renderM ms ++ [braceCloseCh])) ++ trimRight s) =
          (braceOpenCh :: (renderM ms ++ [braceCloseCh])) ++ trimRight s := by
        apply stripLeadingFence_no
        rw [List.cons_append]
        exact take_three_ne braceOpenCh _ (by decide)
      have hrev : (((braceOpenCh :: (renderM ms ++ [braceCloseCh])) ++
          trimRight s)).reverse =
          cS :: (dS ++ (braceCloseCh ::
            ((renderM ms).reverse ++ [braceOpenCh]))) := by
        rw [hts_eq]
        simp
      have hST := stripTrail_noop_of_head _ _ _ hrev hcStw
        (ne_of_pred proseChar hcS_pr (by decide))
      have hB2 : jsTrimList ((braceOpenCh ::
          (renderM ms ++ [braceCloseCh])) ++ trimRight s) =
          (braceOpenCh :: (renderM ms ++ [braceCloseCh])) ++ trimRight s := by
        have hx := jsTrim_embed_idem [] (trimRight s) (renderM ms) rfl htsidem
        rwa [List.nil_append] at hx
      have hext2 := hext
      rw [htp, List.nil_append] at hext2
      unfold parseJsonFromContent
      rw [hT, hSL, hST, hB2, hS1, hext2]
      show (match parseJson (braceOpenCh :: (renderM ms ++ [braceCloseCh]))
          with
        | some v => some v
        | none => parseArrayStage ((braceOpenCh ::
            (renderM ms ++ [braceCloseCh])) ++ trimRight s)) =
        some (Json.obj ms)
      rw [hpj]
    | cons cP tP =>
      have hcPtw : isTrimWs cP = false :=
        dropWhile_head_false isTrimWs p cP tP htp
      have hcP_mem : cP ∈ p :=
        htp_sub cP (by rw [htp]; exact List.mem_cons_self _ _)
      have hcP_pr : proseChar cP = true := hps cP hcP_mem
      rw [htp] at hT
      have hS1 := parseJson_prose_head cP tP
        (braceOpenCh :: (renderM ms ++ [braceCloseCh])) (trimRight s) hcPtw
        hcP_pr (List.mem_cons_self _ _)
      have hSL : stripLeadingFence ((cP :: tP) ++
          (braceOpenCh :: (renderM ms ++ [braceCloseCh])) ++ trimRight s) =
          (cP :: tP) ++ (braceOpenCh :: (renderM ms ++ [braceCloseCh])) ++
            trimRight s := by
        apply stripLeadingFence_no
        rw [List.append_assoc, List.cons_append]
        exact take_three_ne cP _ (ne_of_pred proseChar hcP_pr (by decide))
      have hrev : ((cP :: tP) ++
          (braceOpenCh :: (renderM ms ++ [braceCloseCh])) ++
            trimRight s).reverse =
          cS :: (dS ++ (braceCloseCh :: ((renderM ms).reverse ++
            (braceOpenCh :: (tP.reverse ++ [cP]))))) := by
        rw [hts_eq]
        simp
      have hST := stripTrail_noop_of_head _ _ _ hrev hcStw
        (ne_of_pred proseChar hcS_pr (by decide))
      have hB2 := jsTrim_embed_idem (cP :: tP) (trimRight s) (renderM ms)
        (dropWhile_cons_of_false tP hcPtw) htsidem
      have hext2 := hext
      rw [htp] at hext2
      unfold parseJsonFromContent
      rw [hT, hSL, hST, hB2, hS1, hext2]
      show (match parseJson (braceOpenCh :: (renderM ms ++ [braceCloseCh]))
          with
        | some v => some v
        | none => parseArrayStage ((cP :: tP) ++
            (braceOpenCh :: (renderM ms ++ [braceCloseCh])) ++
              trimRight s)) =
        some (Json.obj ms)
      rw [hpj]

/-- **C5.** For every JSON object value (in the modelled fragment: canonical
rendering, escape-free strings), the four-stage extraction cascade of
`parseJsonFromContent` returns the same parsed object for (a) the bare JSON
text, (b) the text wrapped in a triple-backtick code fence with an arbitrary
language tag, and (c) the text embedded in leading and trailing
natural-language prose. -/
theorem c5_parse_cascade (ms : List (List Char × Json)) (tag p s : List Char)
    (hp : plainV (Json.obj ms) = true)
    (htag : ∀ c ∈ tag, isTagChar c = true)
    (hps : ∀ c ∈ p, proseChar c = true)
    (hss : ∀ c ∈ s, proseChar c = true) :
    parseJsonFromContent (renderV (Json.obj ms)) = some (Json.obj ms) ∧
    parseJsonFromContent (fenceWrap tag (renderV (Json.obj ms))) =
      some (Json.obj ms) ∧
    parseJsonFromContent (p ++ renderV (Json.obj ms) ++ s) =
      some (Json.obj ms) :=
  ⟨cascade_bare ms hp, cascade_fence ms tag hp htag,
    cascade_prose ms p s hp hps hss⟩

/-- Witness for C5 at the object `{"n":7}`, tag `json`, prose
`Sure: ` and ` ok.`. -/
theorem c5_witness :
    parseJsonFromContent (renderV (Json.obj [(['n'], Json.num 7)])) =
      some (Json.obj [(['n'], Json.num 7)]) ∧
    parseJsonFromContent (fenceWrap ['j', 's', 'o', 'n']
      (renderV (Json.obj [(['n'], Json.num 7)]))) =
      some (Json.obj [(['n'], Json.num 7)]) ∧
    parseJsonFromContent (['S', 'u', 'r', 'e', ':', ' '] ++
      renderV (Json.obj [(['n'], Json.num 7)]) ++ [' ', 'o', 'k', '.']) =
      some (Json.obj [(['n'], Json.num 7)]) :=
  c5_parse_cascade [(['n'], Json.num 7)] ['j', 's', 'o', 'n']
    ['S', 'u', 'r', 'e', ':', ' '] [' ', 'o', 'k', '.']
    (by decide) (by decide) (by decide) (by decide)
